import Mathlib

/-!
# Verification of the MergeMaster merge engine

Shallow embedding of the MergeMaster file-merging engine
(`src/MergeFilesCommands.ts`, `src/gitignoreFilter.ts`) and proofs of the
specification's claims about it.

Modelling conventions:
* Absolute paths, directory entries and file contents are `String`s.
* The host filesystem / workspace state is a record of functions (`FS`).
  A failing `stat` / `readDirectory` / `readFile` (a rejected promise or a
  thrown exception in the source) is modelled by `Option.none`.
* `async` functions that can reject with an uncaught error are modelled in
  `Except String`; the error value records the failing path or message.
* JavaScript `Set` and `Map` preserve insertion order, so they are modelled
  by duplicate-free lists built by insert-if-absent (`insertUnique`) and by
  association lists keyed on the node name.
* Directory recursion (`listFiles`) terminates in the source because real
  directory trees are finite; the embedding makes this explicit with a
  `fuel` depth bound (running out of fuel behaves like a caught read error:
  the subtree is skipped, which the source also does on a failed read).
* The `ignore` npm package is an external pluggable capability (spec §9).
  It is modelled by an abstract matcher `ig : String → String → Bool`
  (gitignore file content → relative path → matches).  An `ignore()`
  instance to which no rules were added matches nothing, which is the
  documented behaviour of the library (`igIgnores none`).
-/

set_option maxHeartbeats 1000000

namespace MergeMaster

/-- `vscode.FileType`: the merge engine only distinguishes `File`,
`Directory` and everything else (symlinks, unknown). -/
inductive FileType where
  | file
  | directory
  | other
deriving DecidableEq, Repr

/-- The host filesystem and workspace state consumed by the engine
(spec §6: stat, list-directory-entries, read-file-as-text, workspace root). -/
structure FS where
  /-- `workspace.fs.stat`; `none` models a rejected promise. -/
  stat : String → Option FileType
  /-- `workspace.fs.readDirectory`: list of `(name, type)` entries;
  `none` models a rejected promise. -/
  readDir : String → Option (List (String × FileType))
  /-- `fsPromises.readFile(path, 'utf8')` and `readFileSync`; `none` models
  a read or decode failure. -/
  readFile : String → Option String
  /-- `workspace.workspaceFolders?.[0]?.uri.fsPath`. -/
  workspaceRoot : Option String

/-! ## Path helpers (Node `path` module, POSIX behaviour on
normalized absolute paths) -/

/-- JavaScript `str.split('/')`: splits on every `'/'` and keeps empty
pieces, always returning at least one piece. -/
def splitChars : List Char → List Char → List String
  | [], acc => [String.mk acc.reverse]
  | c :: rest, acc =>
    if c = '/' then String.mk acc.reverse :: splitChars rest []
    else splitChars rest (c :: acc)

/-- JavaScript `path.split('/')`. -/
def jsSplitSlash (s : String) : List String :=
  splitChars s.data []

/-- Path segments: the non-empty pieces between `'/'` separators. -/
def segmentsOf (p : String) : List String :=
  (jsSplitSlash p).filter (fun s => s ≠ "")

/-- Node `path.basename` on a normalized path: the last non-empty segment
(degenerates to `""` on the filesystem root, which the engine never hits). -/
def basename (p : String) : String :=
  (segmentsOf p).getLast?.getD ""

/-- Drop the longest common leading run of two segment lists. -/
def dropCommon : List String → List String → List String × List String
  | a :: as, b :: bs => if a = b then dropCommon as bs else (a :: as, b :: bs)
  | as, bs => (as, bs)

/-- Node `path.relative(fromP, toP)` for normalized absolute POSIX paths:
strip the common leading segments, then climb with `".."` for each
remaining segment of `fromP` and descend into the remainder of `toP`. -/
def nodeRelative (fromP toP : String) : String :=
  let (fs, ts) := dropCommon (segmentsOf fromP) (segmentsOf toP)
  String.intercalate "/" (fs.map (fun _ => "..") ++ ts)

/-- `vscode.Uri.joinPath(uri, name)` / `path.join(dir, name)` for a simple
child name. -/
def joinPath (dir name : String) : String := dir ++ "/" ++ name

/-! ## Ignore Filter (`src/gitignoreFilter.ts`) -/

/-- `ig.ignores(relativePath)` for an `ignore` instance that holds the
rules `rules` (`none` = nothing was `add`ed: such an instance ignores
nothing).  `ig` is the abstract matcher of the external library. -/
def igIgnores (ig : String → String → Bool) : Option String → String → Bool
  | none, _ => false
  | some content, p => ig content p

/-- `getGitignoreFilter(workspaceRoot, respectGitignore)`.

`ctorFails` models the outer `try`/`catch`: any unexpected failure while
constructing the filter falls back to accept-all. The inner `try`/`catch`
around `readFileSync` is the `fs.readFile … = none` case: the instance is
left without rules. -/
def getGitignoreFilter (ig : String → String → Bool) (ctorFails : Bool)
    (fs : FS) (workspaceRoot : String) (respectGitignore : Bool) :
    String → Bool :=
  if respectGitignore = false then fun _ => true
  else if ctorFails then fun _ => true
  else
    let rules : Option String := fs.readFile (workspaceRoot ++ "/.gitignore")
    fun path => !(igIgnores ig rules (nodeRelative workspaceRoot path))

/-! ## Selection Resolver (`listFiles`, the loop of `getFilesContent`) -/

/-- The body of the `for (const [name, type] of entries)` loop of
`listFiles`: push a file entry, splice in the recursive listing of a
directory entry (`recurse` is `listFiles` at one less fuel), skip
anything else. -/
def listStep (uri : String) (recurse : String → List String)
    (uris : List String) (entry : String × FileType) : List String :=
  match entry.2 with
  | FileType.file => uris ++ [joinPath uri entry.1]
  | FileType.directory => uris ++ recurse (joinPath uri entry.1)
  | FileType.other => uris

/-- `listFiles(uri)`: recursively list all descendant files of a
directory.  A failed `readDirectory` is caught and yields `[]` (the
subtree is skipped); `fuel` bounds the recursion depth. -/
def listFiles (fs : FS) : Nat → String → List String
  | 0, _ => []
  | fuel + 1, uri =>
    match fs.readDir uri with
    | none => []
    | some entries => entries.foldl (listStep uri (listFiles fs fuel)) []

/-- `Set.add`: JavaScript sets keep first-insertion order and drop
duplicates. -/
def insertUnique (l : List String) (x : String) : List String :=
  if x ∈ l then l else l ++ [x]

/-- The `for (const file of recursiveFiles)` inner loop: insert each
descendant file the gitignore filter accepts. -/
def addFiltered (filter : String → Bool) (acc : List String) :
    List String → List String
  | [] => acc
  | f :: rest =>
    addFiltered filter (if filter f then insertUnique acc f else acc) rest

/-- One iteration of the `for (const file of selectedFiles)` loop of
`getFilesContent`: stat the entry (a thrown stat is caught and the entry
skipped), insert a file if the gitignore filter accepts it, or recurse
into a directory and insert each accepted descendant file. -/
def resolveStep (fs : FS) (fuel : Nat) (filter : String → Bool)
    (fileSet : List String) (file : String) : List String :=
  match fs.stat file with
  | some FileType.file =>
    if filter file then insertUnique fileSet file else fileSet
  | some FileType.directory =>
    addFiltered filter fileSet (listFiles fs fuel file)
  | some FileType.other => fileSet
  | none => fileSet

/-- The `fileSet` construction loop of `getFilesContent`. -/
def resolveFileSet (fs : FS) (fuel : Nat) (filter : String → Bool)
    (selectedFiles : List String) : List String :=
  selectedFiles.foldl (resolveStep fs fuel filter) []

/-! ## RelativePath (shared by tree renderer and content serializer) -/

/-- The relative-path computation repeated in `buildTreeFromRoot` and
`buildFilesContent`: with a workspace root, `rootName/relative(root, path)`;
without one, the path's base name. -/
def fileRelativePath (fs : FS) (path : String) : String :=
  match fs.workspaceRoot with
  | none => basename path
  | some workspaceRoot =>
    basename workspaceRoot ++ "/" ++ nodeRelative workspaceRoot path

/-- The `relativePaths` set of `buildTreeFromRoot` (a JS `Set`, insertion
order, deduplicated). -/
def relativePathsOf (fs : FS) (fileSet : List String) : List String :=
  fileSet.foldl (fun acc p => insertUnique acc (fileRelativePath fs p)) []

/-! ## Tree Renderer (`buildTreeFromRoot`) -/

/-- The `TreeNode` of `buildTreeFromRoot`: name, children (a JS `Map`
keyed by name: unique names, insertion order), `isFile` flag fixed at
creation time. -/
inductive TreeNode where
  | mk (name : String) (isFile : Bool) (children : List TreeNode)

def TreeNode.name : TreeNode → String
  | .mk n _ _ => n

def TreeNode.isFile : TreeNode → Bool
  | .mk _ f _ => f

def TreeNode.children : TreeNode → List TreeNode
  | .mk _ _ cs => cs

/-- `children.get(part)` on the name-keyed map. -/
def findChild (cs : List TreeNode) (n : String) : Option TreeNode :=
  cs.find? (fun c => c.name == n)

/-- In-place update of the (unique) child named `n`. -/
def replaceChild (cs : List TreeNode) (n : String) (c' : TreeNode) :
    List TreeNode :=
  cs.map (fun c => if c.name == n then c' else c)

/-- The insertion loop of `buildTreeFromRoot`: walk the segments, creating
each missing node with `isFile` set exactly when the segment is the last
one; a node that already exists keeps its `isFile` flag. A newly created
child is appended at the end (JS `Map.set` on a fresh key). -/
def insertParts : TreeNode → List String → TreeNode
  | t, [] => t
  | .mk name isFile children, part :: rest =>
    match findChild children part with
    | some c =>
      .mk name isFile (replaceChild children part (insertParts c rest))
    | none =>
      .mk name isFile
        (children ++ [insertParts (.mk part rest.isEmpty []) rest])

/-- Build the whole trie from the relative paths, starting at the dummy
root `{ name: "", children: new Map(), isFile: false }`. -/
def buildTrie (relativePaths : List String) : TreeNode :=
  relativePaths.foldl (fun t r => insertParts t (jsSplitSlash r))
    (.mk "" false [])

/-- Total order on `Char` lists used to model
`a.name.localeCompare(b.name)` (a fixed total order on strings; the claims
below do not depend on which one the comparator is). -/
def charListLe : List Char → List Char → Bool
  | [], _ => true
  | _ :: _, [] => false
  | a :: as, b :: bs => if a = b then charListLe as bs else decide (a < b)

def nameLe (a b : TreeNode) : Bool := charListLe a.name.data b.name.data

def insertSorted (x : TreeNode) : List TreeNode → List TreeNode
  | [] => [x]
  | y :: ys => if nameLe x y then x :: y :: ys else y :: insertSorted x ys

/-- `Array.from(children.values()).sort((a, b) => a.name.localeCompare(b.name))`. -/
def sortNodes : List TreeNode → List TreeNode
  | [] => []
  | x :: xs => insertSorted x (sortNodes xs)

theorem sizeOf_insertSorted (x : TreeNode) (l : List TreeNode) :
    sizeOf (insertSorted x l) = 1 + sizeOf x + sizeOf l := by
  induction l with
  | nil => simp [insertSorted]
  | cons y ys ih =>
    simp only [insertSorted]
    split
    · simp only [List.cons.sizeOf_spec]
    · simp only [List.cons.sizeOf_spec, ih]; omega

theorem sizeOf_sortNodes (l : List TreeNode) :
    sizeOf (sortNodes l) = sizeOf l := by
  induction l with
  | nil => rfl
  | cons x xs ih =>
    simp only [sortNodes, sizeOf_insertSorted, ih, List.cons.sizeOf_spec]

mutual

/-- One rendered line per emission of `renderTree`; `buildTreeFromRoot`
suffixes each with `"\n"` and concatenates.  A line for a child with
children that is not a file gets the `"/"` suffix and its subtree follows;
any other child is a single leaf line. -/
def renderLines : TreeNode → String → List String
  | .mk _ _ cs, pre => renderGo pre (sortNodes cs)
termination_by t _ => sizeOf t
decreasing_by
  simp only [sizeOf_sortNodes, TreeNode.mk.sizeOf_spec]; omega

/-- The `children.forEach((child, index) => …)` loop of `renderTree`:
the last child gets the `└── ` connector and `"    "` continuation, the
others `├── ` and `"│   "`. -/
def renderGo (pre : String) (cs : List TreeNode) : List String :=
  match cs with
  | [] => []
  | [c] =>
    if c.children.length > 0 && !c.isFile then
      (pre ++ "└── " ++ c.name ++ "/") :: renderLines c (pre ++ "    ")
    else
      [pre ++ "└── " ++ c.name]
  | c :: c' :: rest =>
    (if c.children.length > 0 && !c.isFile then
      (pre ++ "├── " ++ c.name ++ "/") :: renderLines c (pre ++ "│   ")
    else
      [pre ++ "├── " ++ c.name]) ++ renderGo pre (c' :: rest)
termination_by sizeOf cs
decreasing_by
  all_goals (simp only [List.cons.sizeOf_spec, List.nil.sizeOf_spec]; omega)

end

/-- The top-level lines of `buildTreeFromRoot`: a unique root child is
rendered as `name + "/"` unconditionally; multiple (or zero) root children
are each rendered as their own top-level line, `"/"`-suffixed only for
directories. -/
def treeLines (fs : FS) (fileSet : List String) : List String :=
  let tree := buildTrie (relativePathsOf fs fileSet)
  let rootNodes := sortNodes tree.children
  match rootNodes with
  | [r] => (r.name ++ "/") :: renderLines r ""
  | rs =>
    rs.foldr (fun r acc =>
      (r.name ++ (if r.children.length > 0 && !r.isFile then "/" else ""))
        :: renderLines r "" ++ acc) []

/-- `buildTreeFromRoot(fileSet)`: every emitted line is `"\n"`-terminated. -/
def buildTreeFromRoot (fs : FS) (fileSet : List String) : String :=
  String.join ((treeLines fs fileSet).map (fun l => l ++ "\n"))

/-! ## Trie observation functions (verification helpers) -/

/-- Does a (non-empty) segment sequence descend to a node of the trie? -/
def hasSeq : TreeNode → List String → Bool
  | _, [] => true
  | t, s :: q =>
    match findChild t.children s with
    | some c => hasSeq c q
    | none => false

/-- The node a segment sequence descends to, if any. -/
def getNode : TreeNode → List String → Option TreeNode
  | t, [] => some t
  | t, s :: q =>
    match findChild t.children s with
    | some c => getNode c q
    | none => none

mutual

/-- Number of nodes of the tree, the root included. -/
def countAll : TreeNode → Nat
  | .mk _ _ cs => 1 + countList cs
termination_by t => sizeOf t

def countList : List TreeNode → Nat
  | [] => 0
  | c :: rest => countAll c + countList rest
termination_by cs => sizeOf cs

end

mutual

/-- Number of nodes carrying `isFile = true`, the root included. -/
def leafAll : TreeNode → Nat
  | .mk _ f cs => (if f then 1 else 0) + leafList cs
termination_by t => sizeOf t

def leafList : List TreeNode → Nat
  | [] => 0
  | c :: rest => leafAll c + leafList rest
termination_by cs => sizeOf cs

end

mutual

/-- Number of nodes carrying `isFile = false`, the root included. -/
def dirAll : TreeNode → Nat
  | .mk _ f cs => (if f then 0 else 1) + dirList cs
termination_by t => sizeOf t

def dirList : List TreeNode → Nat
  | [] => 0
  | c :: rest => dirAll c + dirList rest
termination_by cs => sizeOf cs

end

/-- Names of a children list (the keys of the JS `Map`). -/
def childNames (cs : List TreeNode) : List String :=
  cs.map TreeNode.name

mutual

/-- Children names are duplicate-free at every level (an invariant of
map-keyed children). -/
def nodupTree : TreeNode → Prop
  | .mk _ _ cs => (childNames cs).Nodup ∧ nodupList cs
termination_by t => sizeOf t

def nodupList : List TreeNode → Prop
  | [] => True
  | c :: rest => nodupTree c ∧ nodupList rest
termination_by cs => sizeOf cs

end

mutual

/-- At every node below, the `isFile` flag agrees with childlessness
(true of tries built from prefix-free path sets). -/
def flagsOk : TreeNode → Prop
  | .mk _ f cs => (f = true ↔ cs = []) ∧ flagsList cs
termination_by t => sizeOf t

def flagsList : List TreeNode → Prop
  | [] => True
  | c :: rest => flagsOk c ∧ flagsList rest
termination_by cs => sizeOf cs

end

mutual

/-- No node name ends in `'/'` (names come from `split('/')` segments). -/
def namesOk : TreeNode → Prop
  | .mk n _ cs => n.data.getLast? ≠ some '/' ∧ namesList cs
termination_by t => sizeOf t

def namesList : List TreeNode → Prop
  | [] => True
  | c :: rest => namesOk c ∧ namesList rest
termination_by cs => sizeOf cs

end

mutual

/-- Canonical form of a tree: children recursively canonicalized and
sorted by name.  Rendering only looks at trees through `canon`. -/
def canon : TreeNode → TreeNode
  | .mk n f cs => .mk n f (sortNodes (canonList cs))
termination_by t => sizeOf t

def canonList : List TreeNode → List TreeNode
  | [] => []
  | c :: rest => canon c :: canonList rest
termination_by cs => sizeOf cs

end

mutual

/-- The sublist of `renderLines` emitted by the directory branch (the
`'/'`-suffixed lines). -/
def dirLines : TreeNode → String → List String
  | .mk _ _ cs, pre => dirGo pre (sortNodes cs)
termination_by t _ => sizeOf t
decreasing_by
  simp only [sizeOf_sortNodes, TreeNode.mk.sizeOf_spec]; omega

def dirGo (pre : String) (cs : List TreeNode) : List String :=
  match cs with
  | [] => []
  | [c] =>
    if c.children.length > 0 && !c.isFile then
      (pre ++ "└── " ++ c.name ++ "/") :: dirLines c (pre ++ "    ")
    else
      []
  | c :: c' :: rest =>
    (if c.children.length > 0 && !c.isFile then
      (pre ++ "├── " ++ c.name ++ "/") :: dirLines c (pre ++ "│   ")
    else
      []) ++ dirGo pre (c' :: rest)
termination_by sizeOf cs
decreasing_by
  all_goals (simp only [List.cons.sizeOf_spec, List.nil.sizeOf_spec]; omega)

end

mutual

/-- The sublist of `renderLines` emitted by the leaf branch (the lines
with no `'/'` suffix). -/
def leafLines : TreeNode → String → List String
  | .mk _ _ cs, pre => leafGo pre (sortNodes cs)
termination_by t _ => sizeOf t
decreasing_by
  simp only [sizeOf_sortNodes, TreeNode.mk.sizeOf_spec]; omega

def leafGo (pre : String) (cs : List TreeNode) : List String :=
  match cs with
  | [] => []
  | [c] =>
    if c.children.length > 0 && !c.isFile then
      leafLines c (pre ++ "    ")
    else
      [pre ++ "└── " ++ c.name]
  | c :: c' :: rest =>
    (if c.children.length > 0 && !c.isFile then
      leafLines c (pre ++ "│   ")
    else
      [pre ++ "├── " ++ c.name]) ++ leafGo pre (c' :: rest)
termination_by sizeOf cs
decreasing_by
  all_goals (simp only [List.cons.sizeOf_spec, List.nil.sizeOf_spec]; omega)

end

/-! ## Content Serializer (`buildFilesContent`) -/

/-- `'='.repeat(50)`. -/
def eqSep : String := String.mk (List.replicate 50 '=')

/-- The seven `mergedContent +=` lines the loop body of
`buildFilesContent` appends for one file. -/
def fileBlockOf (relativePath content : String) : String :=
  "\n" ++ eqSep ++ "\n"
    ++ "<--- Start-File: " ++ relativePath ++ " --->\n"
    ++ eqSep ++ "\n\n"
    ++ content ++ "\n\n"
    ++ eqSep ++ "\n"
    ++ "<--- End-File: " ++ relativePath ++ " --->\n"
    ++ eqSep ++ "\n"

/-- `buildFilesContent(fileSet)`: iterate the file set in insertion order;
each file is read with `fsPromises.readFile` — the loop has no `try`, so a
failed read rejects the whole call (the error carries the failing path). -/
def buildFilesContent (fs : FS) : List String → Except String String
  | [] => .ok ""
  | path :: rest =>
    match fs.readFile path with
    | none => .error path
    | some content =>
      match buildFilesContent fs rest with
      | .error e => .error e
      | .ok restContent =>
        .ok (fileBlockOf (fileRelativePath fs path) content ++ restContent)

/-! ## Merge Orchestrator (`getFilesContent`) -/

/-- `getFilesContent(currentFile, selectedFiles, respectGitignore)`:
fail fatally without a workspace root, build the ignore filter, resolve the
selection to the file set, then return `tree + "\n\n\n" + content`.
`currentFile` is accepted but never used by the source. -/
def getFilesContent (ig : String → String → Bool) (ctorFails : Bool)
    (fs : FS) (fuel : Nat) (currentFile : String)
    (selectedFiles : List String) (respectGitignore : Bool) :
    Except String String :=
  match fs.workspaceRoot with
  | none => .error "No workspace folder found"
  | some workspaceRoot =>
    let filter := getGitignoreFilter ig ctorFails fs workspaceRoot respectGitignore
    let fileSet := resolveFileSet fs fuel filter selectedFiles
    match buildFilesContent fs fileSet with
    | .error e => .error e
    | .ok mergedContent =>
      .ok (buildTreeFromRoot fs fileSet ++ "\n\n\n" ++ mergedContent)

/-! ## Specification-side definitions

These definitions follow the wording of the specification (not the
source); the theorems below compare the source translation against them.
-/

/-- A 50-`'='` separator line, written out literally as in spec §4.4
(two written-out halves of 25 `'='`), newline-terminated. -/
def sepLine : String :=
  "=========================" ++ "=========================" ++ "\n"

/-- The per-file block format of spec §4.4, line by line: a leading
newline, a 50-`'='` separator line, the `Start-File` line, another
separator, a blank line, the file content verbatim followed by a newline,
a blank line, a separator, the `End-File` line and a final separator, each
line newline-terminated. -/
def specFileBlock (relativePath content : String) : String :=
  "\n" ++ sepLine
    ++ ("<--- Start-File: " ++ relativePath ++ " --->\n")
    ++ sepLine
    ++ "\n"
    ++ (content ++ "\n")
    ++ "\n"
    ++ sepLine
    ++ ("<--- End-File: " ++ relativePath ++ " --->\n")
    ++ sepLine

/-- The `Start-File` marker section of a block: leading newline,
separator, marker line, separator. -/
def startSection (relativePath : String) : String :=
  "\n" ++ sepLine ++ ("<--- Start-File: " ++ relativePath ++ " --->\n") ++ sepLine

/-- The `End-File` marker section of a block: separator, marker line,
separator. -/
def endSection (relativePath : String) : String :=
  sepLine ++ ("<--- End-File: " ++ relativePath ++ " --->\n") ++ sepLine

/-- A filesystem is consistent when the type a directory listing reports
for an entry agrees with `stat` of the joined path — true of any real
filesystem snapshot. -/
def ConsistentFS (fs : FS) : Prop :=
  ∀ d entries, fs.readDir d = some entries →
    ∀ e ∈ entries, fs.stat (joinPath d e.1) = some e.2

/-- Does the rendered line end in `'/'`?  (Directory lines do; leaf lines
never do, because tree-node names contain no `'/'`.) -/
def endsWithSlash (s : String) : Bool := s.data.getLast? == some '/'

/-- Boolean segment-list prefix test (`a` is a, possibly improper, leading
run of `b`). -/
def pfxOf : List String → List String → Bool
  | [], _ => true
  | _ :: _, [] => false
  | s₁ :: t₁, s₂ :: t₂ => s₁ == s₂ && pfxOf t₁ t₂

/-- The non-empty prefixes of a segment list
(`[x]`, `[x, y]`, …, the whole list). -/
def allPfx : List String → List (List String)
  | [] => []
  | x :: rest => [x] :: (allPfx rest).map (fun q => x :: q)

/-- The non-empty *proper* prefixes of a segment list: the non-empty
prefixes other than the whole list. -/
def properPfx (l : List String) : List (List String) :=
  (allPfx l).filter (fun q => q ≠ l)

/-- No relative path is a proper leading-segment run of another: automatic
for any set of genuine file paths, since a file is never a directory. -/
def PairwiseNotPfx (rels : List (List String)) : Prop :=
  rels.Pairwise (fun a b => pfxOf a b = false ∧ pfxOf b a = false)

/-! ## Concrete fixtures for counterexamples and witnesses -/

/-- A matcher standing in for the `ignore` library that matches nothing
(the fixtures below disable gitignore filtering anyway). -/
def igNone : String → String → Bool := fun _ _ => false

/-- Fixture workspace: root `/w` with readable files `a.txt`, `b.txt`, a
directory `d` containing `x.txt`, an empty directory `e`, and a file
`bad.txt` whose read fails. -/
def fsA : FS where
  stat := fun p =>
    if p = "/w/a.txt" then some .file
    else if p = "/w/b.txt" then some .file
    else if p = "/w/bad.txt" then some .file
    else if p = "/w/d" then some .directory
    else if p = "/w/d/x.txt" then some .file
    else if p = "/w/e" then some .directory
    else none
  readDir := fun p =>
    if p = "/w/d" then some [("x.txt", .file)]
    else if p = "/w/e" then some []
    else none
  readFile := fun p =>
    if p = "/w/a.txt" then some "A"
    else if p = "/w/b.txt" then some "B"
    else if p = "/w/d/x.txt" then some "X"
    else none
  workspaceRoot := some "/w"

/-- Fixture without a workspace root (relative paths degenerate to base
names). -/
def fsNoRoot : FS where
  stat := fun _ => none
  readDir := fun _ => none
  readFile := fun _ => none
  workspaceRoot := none

/-! ## String helper lemmas -/

theorem strCancelLeft {a b c : String} (h : a ++ b = a ++ c) : b = c := by
  apply String.ext
  have hd := congrArg String.data h
  simpa [String.data_append] using hd

theorem strCancelRight {a b c : String} (h : b ++ a = c ++ a) : b = c := by
  apply String.ext
  have hd := congrArg String.data h
  simp only [String.data_append] at hd
  exact List.append_cancel_right hd

theorem strCancelBoth {a b x y : String} :
    a ++ x ++ b = a ++ y ++ b ↔ x = y := by
  constructor
  · intro h
    exact strCancelLeft (strCancelRight h)
  · intro h
    rw [h]

theorem joinFoldlData (l : List String) :
    ∀ a : String, (List.foldl (fun r s => r ++ s) a l).data =
      a.data ++ (List.foldl (fun r s => r ++ s) "" l).data := by
  induction l with
  | nil => intro a; simp
  | cons x xs ih =>
    intro a
    simp only [List.foldl]
    rw [ih (a ++ x), ih ("" ++ x)]
    simp [String.data_append, List.append_assoc]

theorem joinCons (s : String) (l : List String) :
    String.join (s :: l) = s ++ String.join l := by
  apply String.ext
  simp only [String.join, List.foldl, String.data_append]
  rw [joinFoldlData l ("" ++ s)]
  simp [String.data_append]

/-! ## C10: `currentFile` independence -/

/-- **C10.** The merged document produced by `getFilesContent` is
independent of its `currentFile` argument: the source accepts the argument
and never uses it, so for any two values of `currentFile` (with everything
else equal) the results are identical. -/
theorem c10_currentFile_irrelevant
    (ig : String → String → Bool) (ctorFails : Bool) (fs : FS) (fuel : Nat)
    (current₁ current₂ : String) (sel : List String) (rg : Bool) :
    getFilesContent ig ctorFails fs fuel current₁ sel rg =
      getFilesContent ig ctorFails fs fuel current₂ sel rg := rfl

/-! ## C8: the gitignore filter builder -/

/-- **C8.** The filter built by `getGitignoreFilter` rejects a path
exactly when gitignore filtering is enabled, construction did not fail,
the `.gitignore` file was readable, and its rules match the path made
relative to the root.  Equivalently: the predicate accepts everything when
`respectGitignore` is false, when the ignore file is absent or unreadable,
or when construction fails; otherwise it rejects exactly the matched
paths. -/
theorem c8_filter_characterization
    (ig : String → String → Bool) (ctorFails : Bool) (fs : FS)
    (root : String) (rg : Bool) (p : String) :
    getGitignoreFilter ig ctorFails fs root rg p = false ↔
      (rg = true ∧ ctorFails = false ∧
        ∃ content, fs.readFile (root ++ "/.gitignore") = some content ∧
          ig content (nodeRelative root p) = true) := by
  unfold getGitignoreFilter
  cases rg with
  | false => simp
  | true =>
    cases ctorFails with
    | true => simp
    | false =>
      cases hread : fs.readFile (root ++ "/.gitignore") with
      | none => simp [igIgnores, hread]
      | some content => simp [igIgnores, hread]

/-! ## C3: the per-file block format -/

theorem eqSep_newline : eqSep ++ "\n" = sepLine := by decide

/-- The translated loop body emits exactly the spec §4.4 block. -/
theorem fileBlockOf_eq_specFileBlock (rel content : String) :
    fileBlockOf rel content = specFileBlock rel content := by
  unfold fileBlockOf specFileBlock
  rw [← eqSep_newline]
  apply String.ext
  simp [String.data_append]

/-- **C3.** When every file in the set is readable, the content
serializer produces exactly the concatenation of one §4.4 block per file:
leading newline, 50-`'='` separator line, the `Start-File: {relativePath}`
line, another separator, a blank line, the content verbatim plus a
newline, a blank line, a separator, the `End-File: {relativePath}` line
and a final separator, each line newline-terminated. -/
theorem c3_block_format (fs : FS) (fileSet : List String)
    (content : String → String)
    (hread : ∀ p ∈ fileSet, fs.readFile p = some (content p)) :
    buildFilesContent fs fileSet =
      .ok (String.join (fileSet.map
        (fun p => specFileBlock (fileRelativePath fs p) (content p)))) := by
  induction fileSet with
  | nil => rfl
  | cons p rest ih =>
    have hp := hread p (List.mem_cons_self p rest)
    have hrest := ih (fun q hq => hread q (List.mem_cons_of_mem p hq))
    simp only [buildFilesContent, hp, hrest, List.map_cons, joinCons,
      fileBlockOf_eq_specFileBlock]

/-- **C3 witness.** Two concrete readable files produce exactly the two
spec blocks. -/
theorem c3_block_format_witness :
    buildFilesContent fsA ["/w/a.txt", "/w/b.txt"] =
      .ok (String.join (["/w/a.txt", "/w/b.txt"].map
        (fun p => specFileBlock (fileRelativePath fsA p)
          (if p = "/w/a.txt" then "A" else "B")))) :=
  c3_block_format fsA ["/w/a.txt", "/w/b.txt"]
    (fun p => if p = "/w/a.txt" then "A" else "B")
    (by intro p hp; fin_cases hp <;> rfl)

/-! ## C4: round-trip through the block markers -/

theorem fileBlockOf_decomp (rel content : String) :
    fileBlockOf rel content =
      startSection rel ++ ("\n" ++ content ++ "\n" ++ "\n") ++ endSection rel := by
  unfold fileBlockOf startSection endSection
  rw [← eqSep_newline]
  apply String.ext
  simp [String.data_append]

/-- **C4.** Round-trip: the text strictly between a block's `Start-File`
marker section and its `End-File` marker section, minus the two
blank-line paddings, is exactly the original file content — i.e. a string
`mid` fills the frame
`startSection ++ "\n" ++ mid ++ "\n" ++ "\n" ++ endSection` of the
emitted block exactly when `mid` is the file's content. -/
theorem c4_round_trip (rel content mid : String) :
    fileBlockOf rel content =
      startSection rel ++ "\n" ++ mid ++ "\n" ++ "\n" ++ endSection rel ↔
    mid = content := by
  rw [fileBlockOf_decomp]
  have hassoc :
      startSection rel ++ "\n" ++ mid ++ "\n" ++ "\n" ++ endSection rel =
        startSection rel ++ ("\n" ++ mid ++ "\n" ++ "\n") ++ endSection rel := by
    simp [String.append_assoc]
  rw [hassoc, strCancelBoth]
  constructor
  · intro h
    have h1 : "\n" ++ content ++ "\n" = "\n" ++ mid ++ "\n" :=
      strCancelRight (a := "\n") (by simpa [String.append_assoc] using h)
    have h2 : "\n" ++ content = "\n" ++ mid := strCancelRight h1
    exact (strCancelLeft h2).symm
  · intro h
    rw [h]

/-! ## C2: read failures during serialization -/

/-- **C2 counterexample.** With two selected files of which the second
(`/w/bad.txt`) fails to read, the whole merge rejects with the read error
and produces no document at all — even though the first file (`/w/a.txt`)
was readable — contradicting the claim that a per-file read failure only
skips that file's block. -/
theorem c2_counterexample :
    getFilesContent igNone false fsA 1 "/w/a.txt"
        ["/w/a.txt", "/w/bad.txt"] false = .error "/w/bad.txt" ∧
      fsA.readFile "/w/a.txt" = some "A" ∧
      fsA.stat "/w/bad.txt" = some .file := by
  exact ⟨rfl, rfl, rfl⟩

/-- **C2 amended.** A failed read of any member of the file set makes the
content serializer (and with it the whole merge) reject — the per-file
read is not guarded.  By contrast, failures while *resolving* the
selection (a `stat` that throws) are caught: the failing entry is skipped
and resolution of the remaining entries is unaffected. -/
theorem c2_amended (fs : FS) (fileSet : List String) (p : String)
    (hp : p ∈ fileSet) (hfail : fs.readFile p = none) :
    (∃ e, buildFilesContent fs fileSet = .error e) ∧
    ∀ (fuel : Nat) (filter : String → Bool) (sel₁ sel₂ : List String)
      (bad : String), fs.stat bad = none →
      resolveFileSet fs fuel filter (sel₁ ++ bad :: sel₂) =
        resolveFileSet fs fuel filter (sel₁ ++ sel₂) := by
  constructor
  · induction fileSet with
    | nil => cases hp
    | cons q rest ih =>
      cases hq : fs.readFile q with
      | none => exact ⟨q, by simp [buildFilesContent, hq]⟩
      | some content =>
        have hpr : p ∈ rest := by
          rcases List.mem_cons.mp hp with h | h
          · rw [← h, hfail] at hq; cases hq
          · exact h
        obtain ⟨e, he⟩ := ih hpr
        exact ⟨e, by simp [buildFilesContent, hq, he]⟩
  · intro fuel filter sel₁ sel₂ bad hbad
    unfold resolveFileSet
    rw [List.foldl_append, List.foldl_append, List.foldl_cons]
    have hstep : ∀ acc, resolveStep fs fuel filter acc bad = acc := by
      intro acc
      unfold resolveStep
      rw [hbad]
    rw [hstep]

/-- **C2 amended witness.** Concrete instance: `/w/bad.txt` is in the
file set and unreadable, so serialization rejects; and a selection entry
whose `stat` fails (`/w/ghost`) is skipped without affecting the rest. -/
theorem c2_amended_witness :
    ("/w/bad.txt" ∈ ["/w/a.txt", "/w/bad.txt"] ∧
      fsA.readFile "/w/bad.txt" = none) ∧
    ((∃ e, buildFilesContent fsA ["/w/a.txt", "/w/bad.txt"] = .error e) ∧
      ∀ (fuel : Nat) (filter : String → Bool) (sel₁ sel₂ : List String)
        (bad : String), fsA.stat bad = none →
        resolveFileSet fsA fuel filter (sel₁ ++ bad :: sel₂) =
          resolveFileSet fsA fuel filter (sel₁ ++ sel₂)) :=
  ⟨⟨by decide, rfl⟩,
    c2_amended fsA ["/w/a.txt", "/w/bad.txt"] "/w/bad.txt" (by decide) rfl⟩

/-! ## C9: the empty FileSet -/

/-- **C9.** When the resolved file set is empty, the tree output is
empty, the content output is empty, and the merge still succeeds,
returning exactly the joining whitespace `tree ++ "\n\n\n" ++ content` =
`"\n\n\n"`. -/
theorem c9_empty_fileset (ig : String → String → Bool) (ctorFails : Bool)
    (fs : FS) (fuel : Nat) (current : String) (sel : List String)
    (rg : Bool) (root : String) (hroot : fs.workspaceRoot = some root)
    (hempty : resolveFileSet fs fuel
      (getGitignoreFilter ig ctorFails fs root rg) sel = []) :
    getFilesContent ig ctorFails fs fuel current sel rg = .ok "\n\n\n" ∧
    buildTreeFromRoot fs [] = "" ∧
    buildFilesContent fs [] = .ok "" := by
  refine ⟨?_, rfl, rfl⟩
  unfold getFilesContent
  rw [hroot]
  simp only [hempty]
  rfl

/-- **C9 witness.** Selecting only the empty directory `/w/e` resolves to
an empty file set and the merge returns `"\n\n\n"`. -/
theorem c9_empty_fileset_witness :
    fsA.workspaceRoot = some "/w" ∧
    resolveFileSet fsA 1 (getGitignoreFilter igNone false fsA "/w" false)
      ["/w/e"] = [] ∧
    getFilesContent igNone false fsA 1 "cur" ["/w/e"] false = .ok "\n\n\n" :=
  ⟨rfl, by decide,
    (c9_empty_fileset igNone false fsA 1 "cur" ["/w/e"] false "/w" rfl
      (by decide)).1⟩

/-! ## C7: file-set invariants after resolution -/

theorem mem_insertUnique {l : List String} {x y : String} :
    y ∈ insertUnique l x ↔ y ∈ l ∨ y = x := by
  unfold insertUnique
  split
  · rename_i hx
    exact ⟨Or.inl, fun h => h.elim id (fun he => he ▸ hx)⟩
  · simp [List.mem_append]

theorem nodup_insertUnique {l : List String} {x : String} (h : l.Nodup) :
    (insertUnique l x).Nodup := by
  unfold insertUnique
  split
  · exact h
  · rename_i hx
    simp [List.nodup_append, h, hx]

/-- Invariant preservation along a `foldl` loop. -/
theorem foldlInv {α β : Type} (f : α → β → α) (inv : α → Prop) :
    ∀ (l : List β) (a : α), inv a →
      (∀ x b, b ∈ l → inv x → inv (f x b)) → inv (List.foldl f a l) := by
  intro l
  induction l with
  | nil => intro a ha _; exact ha
  | cons x xs ih =>
    intro a ha hstep
    exact ih (f a x) (hstep a x (List.mem_cons_self x xs) ha)
      (fun y b hb hy => hstep y b (List.mem_cons_of_mem x hb) hy)

/-- Everything `listFiles` returns was reported to be (and, in a
consistent filesystem, is) a file. -/
theorem listFiles_stat (fs : FS) (hcons : ConsistentFS fs) :
    ∀ (fuel : Nat) (uri p : String),
      p ∈ listFiles fs fuel uri → fs.stat p = some .file := by
  intro fuel
  induction fuel with
  | zero => intro uri p hp; simp [listFiles] at hp
  | succ n ih =>
    intro uri p hp
    rw [listFiles] at hp
    cases hrd : fs.readDir uri with
    | none => rw [hrd] at hp; simp at hp
    | some entries =>
      rw [hrd] at hp
      have hfold := foldlInv (listStep uri (listFiles fs n))
        (fun uris => ∀ q ∈ uris, fs.stat q = some .file) entries []
        (by intro q hq; cases hq) ?_
      · exact hfold p hp
      · intro acc e he hacc q hq
        unfold listStep at hq
        obtain ⟨ename, etype⟩ := e
        cases etype with
        | file =>
          simp only at hq
          rcases List.mem_append.mp hq with h | h
          · exact hacc q h
          · rcases List.mem_singleton.mp h with rfl
            exact hcons uri entries hrd (ename, .file) he
        | directory =>
          simp only at hq
          rcases List.mem_append.mp hq with h | h
          · exact hacc q h
          · exact ih (joinPath uri ename) q h
        | other => exact hacc q hq

theorem addFiltered_inv (filter : String → Bool) (fileOk : String → Prop) :
    ∀ files : List String, (∀ f ∈ files, filter f = true → fileOk f) →
      ∀ acc, (acc.Nodup ∧ ∀ p ∈ acc, fileOk p ∧ filter p = true) →
        ((addFiltered filter acc files).Nodup ∧
          ∀ p ∈ addFiltered filter acc files, fileOk p ∧ filter p = true) := by
  intro files
  induction files with
  | nil => intro _ acc h; exact h
  | cons f rest ih =>
    intro hfiles acc hacc
    obtain ⟨hnd, hmem⟩ := hacc
    rw [addFiltered]
    apply ih (fun g hg hfg => hfiles g (List.mem_cons_of_mem f hg) hfg)
    by_cases hf : filter f = true
    · rw [if_pos hf]
      refine ⟨nodup_insertUnique hnd, ?_⟩
      intro p hp
      rcases mem_insertUnique.mp hp with h | h
      · exact hmem p h
      · rw [h]
        exact ⟨hfiles f (List.mem_cons_self f rest) hf, hf⟩
    · rw [if_neg hf]
      exact ⟨hnd, hmem⟩

/-- **C7.** After resolving any selection, the file set is
duplicate-free (a path reachable both directly and through a selected
directory appears exactly once), contains only paths that `stat` to
files (never a directory), and every member passed the ignore-filter
predicate when it was inserted. -/
theorem c7_fileset_invariants (ig : String → String → Bool)
    (ctorFails : Bool) (fs : FS) (root : String) (fuel : Nat) (rg : Bool)
    (sel : List String) (hcons : ConsistentFS fs) :
    (resolveFileSet fs fuel (getGitignoreFilter ig ctorFails fs root rg)
      sel).Nodup ∧
    ∀ p ∈ resolveFileSet fs fuel (getGitignoreFilter ig ctorFails fs root rg)
        sel,
      fs.stat p = some .file ∧
      getGitignoreFilter ig ctorFails fs root rg p = true ∧
      (resolveFileSet fs fuel (getGitignoreFilter ig ctorFails fs root rg)
        sel).count p = 1 := by
  set filter := getGitignoreFilter ig ctorFails fs root rg with hfilter
  have main : (resolveFileSet fs fuel filter sel).Nodup ∧
      ∀ p ∈ resolveFileSet fs fuel filter sel,
        fs.stat p = some .file ∧ filter p = true := by
    unfold resolveFileSet
    apply foldlInv (resolveStep fs fuel filter)
      (fun acc => acc.Nodup ∧ ∀ p ∈ acc, fs.stat p = some .file ∧ filter p = true)
    · exact ⟨List.nodup_nil, by intro p hp; cases hp⟩
    · intro acc b _ ⟨hnd, hmem⟩
      unfold resolveStep
      cases hstat : fs.stat b with
      | none => exact ⟨hnd, hmem⟩
      | some ty =>
        cases ty with
        | file =>
          by_cases hb : filter b = true
          · rw [if_pos hb]
            refine ⟨nodup_insertUnique hnd, ?_⟩
            intro p hp
            rcases mem_insertUnique.mp hp with h | h
            · exact hmem p h
            · subst h; exact ⟨hstat, hb⟩
          · rw [if_neg hb]
            exact ⟨hnd, hmem⟩
        | directory =>
          exact addFiltered_inv filter (fun p => fs.stat p = some .file)
            (listFiles fs fuel b)
            (fun g hg _ => listFiles_stat fs hcons fuel b g hg)
            acc ⟨hnd, hmem⟩
        | other => exact ⟨hnd, hmem⟩
  refine ⟨main.1, ?_⟩
  intro p hp
  exact ⟨(main.2 p hp).1, (main.2 p hp).2,
    List.count_eq_one_of_mem main.1 hp⟩

theorem fsA_consistent : ConsistentFS fsA := by
  intro d entries h e he
  have h' : (if d = "/w/d" then some [("x.txt", FileType.file)]
      else if d = "/w/e" then some ([] : List (String × FileType))
      else none) = some entries := h
  split at h'
  · rename_i hd
    cases h'
    have he' : e = ("x.txt", FileType.file) := List.mem_singleton.mp he
    subst he'
    subst hd
    decide
  · split at h'
    · cases h'
      exact absurd he (List.not_mem_nil e)
    · exact Option.noConfusion h'

/-! ## Basic trie lemmas -/

@[simp] theorem TreeNode.name_mk (n : String) (f : Bool) (cs : List TreeNode) :
    (TreeNode.mk n f cs).name = n := rfl

@[simp] theorem TreeNode.isFile_mk (n : String) (f : Bool)
    (cs : List TreeNode) : (TreeNode.mk n f cs).isFile = f := rfl

@[simp] theorem TreeNode.children_mk (n : String) (f : Bool)
    (cs : List TreeNode) : (TreeNode.mk n f cs).children = cs := rfl

theorem insertParts_name (t : TreeNode) (p : List String) :
    (insertParts t p).name = t.name := by
  cases t with
  | mk n f cs =>
    cases p with
    | nil => rfl
    | cons x rest =>
      simp only [insertParts]
      cases hfc : findChild cs x <;> simp

theorem insertParts_isFile (t : TreeNode) (p : List String) :
    (insertParts t p).isFile = t.isFile := by
  cases t with
  | mk n f cs =>
    cases p with
    | nil => rfl
    | cons x rest =>
      simp only [insertParts]
      cases hfc : findChild cs x <;> simp

theorem findChild_mem {cs : List TreeNode} {x : String} {c : TreeNode}
    (h : findChild cs x = some c) : c ∈ cs ∧ c.name = x := by
  unfold findChild at h
  refine ⟨List.mem_of_find?_eq_some h, ?_⟩
  have h1 := List.find?_some h
  simpa using h1

theorem findChild_none_iff {cs : List TreeNode} {x : String} :
    findChild cs x = none ↔ x ∉ childNames cs := by
  unfold findChild childNames
  rw [List.find?_eq_none]
  simp only [List.mem_map, beq_iff_eq]
  constructor
  · rintro h ⟨c, hc, hname⟩
    exact h c hc hname
  · intro h c hc hname
    exact h ⟨c, hc, hname⟩

theorem findChild_self {cs : List TreeNode}
    (hnd : (childNames cs).Nodup) {c : TreeNode} (hc : c ∈ cs) :
    findChild cs c.name = some c := by
  induction cs with
  | nil => cases hc
  | cons d rest ih =>
    have hnd' : (childNames rest).Nodup ∧ d.name ∉ childNames rest := by
      have := List.nodup_cons.mp hnd
      exact ⟨this.2, this.1⟩
    rcases List.mem_cons.mp hc with rfl | hc'
    · unfold findChild
      simp [List.find?_cons_of_pos]
    · have hne : (d.name == c.name) = false := by
        simp only [beq_eq_false_iff_ne, ne_eq]
        intro he
        exact hnd'.2 (he ▸ List.mem_map_of_mem TreeNode.name hc')
      unfold findChild
      rw [List.find?_cons_of_neg _ (by simp [hne])]
      exact ih hnd'.1 hc'

theorem replaceChild_noop {cs : List TreeNode} {x : String} {c' : TreeNode}
    (h : x ∉ childNames cs) : replaceChild cs x c' = cs := by
  induction cs with
  | nil => rfl
  | cons d rest ih =>
    simp only [childNames, List.map_cons, List.mem_cons] at h
    push_neg at h
    unfold replaceChild
    simp only [List.map_cons]
    rw [if_neg (by simp [Ne.symm h.1])]
    have := ih (by simpa [childNames] using h.2)
    unfold replaceChild at this
    rw [this]

@[simp] theorem replaceChild_nil (x : String) (c' : TreeNode) :
    replaceChild [] x c' = [] := rfl

theorem replaceChild_cons (d : TreeNode) (rest : List TreeNode)
    (x : String) (c' : TreeNode) :
    replaceChild (d :: rest) x c' =
      (if d.name == x then c' else d) :: replaceChild rest x c' := rfl

@[simp] theorem childNames_nil : childNames [] = [] := rfl

@[simp] theorem childNames_cons (d : TreeNode) (rest : List TreeNode) :
    childNames (d :: rest) = d.name :: childNames rest := rfl

theorem childNames_append (cs ds : List TreeNode) :
    childNames (cs ++ ds) = childNames cs ++ childNames ds := by
  unfold childNames
  exact List.map_append TreeNode.name cs ds

theorem childNames_replace {cs : List TreeNode} {x : String}
    {c' : TreeNode} (hname : c'.name = x) :
    childNames (replaceChild cs x c') = childNames cs := by
  induction cs with
  | nil => rfl
  | cons d rest ih =>
    rw [replaceChild_cons, childNames_cons, childNames_cons, ih]
    congr 1
    by_cases hd : d.name = x
    · rw [if_pos (by simp [hd])]
      rw [hname, hd]
    · rw [if_neg (by simp [hd])]

theorem findChild_cons (d : TreeNode) (rest : List TreeNode) (s : String) :
    findChild (d :: rest) s =
      if d.name == s then some d else findChild rest s := by
  unfold findChild
  cases hds : (d.name == s) with
  | true =>
    rw [List.find?_cons_of_pos _ (by simp [hds])]
    simp [hds]
  | false =>
    rw [List.find?_cons_of_neg _ (by simp [hds])]
    simp [hds]

theorem findChild_replace_self {cs : List TreeNode} {x : String}
    {c c' : TreeNode} (h : findChild cs x = some c) (hname : c'.name = x) :
    findChild (replaceChild cs x c') x = some c' := by
  induction cs with
  | nil => simp [findChild] at h
  | cons d rest ih =>
    by_cases hd : d.name = x
    · simp [replaceChild_cons, findChild_cons, hd, hname]
    · rw [findChild_cons, if_neg (by simp [hd])] at h
      simp only [replaceChild_cons, if_neg (by simp [hd] :
        ¬((d.name == x) = true))]
      rw [findChild_cons, if_neg (by simp [hd])]
      exact ih h

theorem findChild_replace_other {cs : List TreeNode} {x s : String}
    {c' : TreeNode} (hs : s ≠ x) (hname : c'.name = x) :
    findChild (replaceChild cs x c') s = findChild cs s := by
  have hxs : x ≠ s := Ne.symm hs
  induction cs with
  | nil => rfl
  | cons d rest ih =>
    by_cases hd : d.name = x
    · simp only [replaceChild_cons,
        if_pos (by simp [hd] : (d.name == x) = true)]
      rw [findChild_cons, if_neg (by simp [hname, hxs]),
        findChild_cons, if_neg (by simp [hd, hxs])]
      exact ih
    · simp only [replaceChild_cons,
        if_neg (by simp [hd] : ¬((d.name == x) = true))]
      by_cases hds : d.name = s
      · rw [findChild_cons, if_pos (by simp [hds]),
          findChild_cons, if_pos (by simp [hds])]
      · rw [findChild_cons, if_neg (by simp [hds]),
          findChild_cons, if_neg (by simp [hds])]
        exact ih

theorem findChild_append {cs ds : List TreeNode} {s : String} :
    findChild (cs ++ ds) s =
      match findChild cs s with
      | some c => some c
      | none => findChild ds s := by
  induction cs with
  | nil => simp [findChild]
  | cons d rest ih =>
    rw [List.cons_append]
    by_cases hds : d.name = s
    · rw [findChild_cons, if_pos (by simp [hds]),
        findChild_cons, if_pos (by simp [hds])]
    · rw [findChild_cons, if_neg (by simp [hds]),
        findChild_cons, if_neg (by simp [hds])]
      exact ih

theorem countList_eq_sum (cs : List TreeNode) :
    countList cs = (cs.map countAll).sum := by
  induction cs with
  | nil => simp [countList]
  | cons c rest ih => simp only [countList, List.map_cons, List.sum_cons, ih]

theorem leafList_eq_sum (cs : List TreeNode) :
    leafList cs = (cs.map leafAll).sum := by
  induction cs with
  | nil => simp [leafList]
  | cons c rest ih => simp only [leafList, List.map_cons, List.sum_cons, ih]

theorem dirList_eq_sum (cs : List TreeNode) :
    dirList cs = (cs.map dirAll).sum := by
  induction cs with
  | nil => simp [dirList]
  | cons c rest ih => simp only [dirList, List.map_cons, List.sum_cons, ih]

theorem sum_map_replace (μ : TreeNode → Nat) (c' : TreeNode)
    {cs : List TreeNode}
    {x : String} {c : TreeNode} (h : findChild cs x = some c)
    (hnd : (childNames cs).Nodup) :
    ((replaceChild cs x c').map μ).sum + μ c = (cs.map μ).sum + μ c' := by
  induction cs with
  | nil => simp [findChild] at h
  | cons d rest ih =>
    have hnd' := List.nodup_cons.mp hnd
    by_cases hd : d.name = x
    · have hcd : c = d := by
        rw [findChild_cons, if_pos (by simp [hd])] at h
        exact (Option.some_inj.mp h).symm
      subst hcd
      rw [replaceChild_cons, if_pos (by simp [hd])]
      rw [replaceChild_noop (hd ▸ hnd'.1)]
      simp only [List.map_cons, List.sum_cons]
      omega
    · have hrest : findChild rest x = some c := by
        rwa [findChild_cons, if_neg (by simp [hd])] at h
      rw [replaceChild_cons, if_neg (by simp [hd])]
      have := ih hrest hnd'.2
      simp only [List.map_cons, List.sum_cons]
      omega

@[simp] theorem pfxOf_nil (l : List String) : pfxOf [] l = true := rfl

@[simp] theorem pfxOf_cons_nil (a : String) (as : List String) :
    pfxOf (a :: as) [] = false := rfl

theorem pfxOf_cons_cons (a b : String) (as bs : List String) :
    pfxOf (a :: as) (b :: bs) = (a == b && pfxOf as bs) := rfl

@[simp] theorem hasSeq_nil (t : TreeNode) : hasSeq t [] = true := rfl

theorem hasSeq_cons (t : TreeNode) (s : String) (q : List String) :
    hasSeq t (s :: q) =
      match findChild t.children s with
      | some c => hasSeq c q
      | none => false := rfl

@[simp] theorem getNode_nil (t : TreeNode) : getNode t [] = some t := rfl

theorem getNode_cons (t : TreeNode) (s : String) (q : List String) :
    getNode t (s :: q) =
      match findChild t.children s with
      | some c => getNode c q
      | none => none := rfl

theorem insertParts_nil (t : TreeNode) : insertParts t [] = t := by
  cases t <;> rfl

/-- Inserting a path makes exactly its prefixes reachable, in addition to
what was already reachable. -/
theorem hasSeq_insert : ∀ (p : List String) (t : TreeNode) (q : List String),
    hasSeq (insertParts t p) q = (hasSeq t q || pfxOf q p) := by
  intro p
  induction p with
  | nil =>
    intro t q
    rw [insertParts_nil]
    cases q with
    | nil => simp
    | cons s q' => simp [pfxOf_cons_nil]
  | cons x p' ih =>
    intro t q
    cases t with
    | mk n f cs =>
      cases q with
      | nil => simp
      | cons s q' =>
        have hAname : ∀ e : Bool, (insertParts (TreeNode.mk x e []) p').name = x := by
          intro e; rw [insertParts_name]; rfl
        simp only [insertParts]
        cases hfc : findChild cs x with
        | some c =>
          have hcx : (insertParts c p').name = x := by
            rw [insertParts_name]; exact (findChild_mem hfc).2
          by_cases hsx : s = x
          · subst hsx
            rw [hasSeq_cons, TreeNode.children_mk]
            simp only [findChild_replace_self hfc hcx]
            rw [ih, hasSeq_cons, TreeNode.children_mk]
            simp only [hfc]
            rw [pfxOf_cons_cons]
            simp
          · rw [hasSeq_cons, TreeNode.children_mk,
              findChild_replace_other hsx hcx,
              hasSeq_cons, TreeNode.children_mk, pfxOf_cons_cons]
            cases hfs : findChild cs s with
            | some d => simp [hfs, hsx]
            | none => simp [hfs, hsx]
        | none =>
          rw [hasSeq_cons, TreeNode.children_mk, findChild_append]
          by_cases hsx : s = x
          · subst hsx
            simp only [hfc]
            simp only [show findChild
                [insertParts (TreeNode.mk s p'.isEmpty []) p'] s
                = some (insertParts (TreeNode.mk s p'.isEmpty []) p') from by
              rw [findChild_cons, if_pos (by simp [hAname])]]
            rw [ih, hasSeq_cons, TreeNode.children_mk]
            simp only [hfc]
            rw [pfxOf_cons_cons]
            cases q' with
            | nil => simp
            | cons u q'' => simp [hasSeq_cons, findChild]
          · cases hfs : findChild cs s with
            | some d =>
              simp only [hfs]
              rw [hasSeq_cons, TreeNode.children_mk]
              simp only [hfs]
              rw [pfxOf_cons_cons]
              simp [hsx]
            | none =>
              simp only [hfs]
              simp only [show findChild
                  [insertParts (TreeNode.mk x p'.isEmpty []) p'] s = none from by
                rw [findChild_cons,
                  if_neg (by simp [hAname]; exact fun h => hsx h.symm)]
                rfl]
              rw [hasSeq_cons, TreeNode.children_mk]
              simp only [hfs]
              rw [pfxOf_cons_cons]
              simp [hsx]

theorem pfxOf_refl (l : List String) : pfxOf l l = true := by
  induction l with
  | nil => rfl
  | cons x rest ih => simp [pfxOf_cons_cons, ih]

theorem pfxOf_drop_eq_nil {q p : List String} (h : pfxOf q p = true) :
    p.drop q.length = [] ↔ q = p := by
  induction q generalizing p with
  | nil =>
    simp only [List.length_nil, List.drop_zero]
    exact ⟨fun h' => h'.symm, fun h' => h'.symm⟩
  | cons s q' ih =>
    cases p with
    | nil => simp [pfxOf_cons_nil] at h
    | cons x p' =>
      rw [pfxOf_cons_cons, Bool.and_eq_true, beq_iff_eq] at h
      obtain ⟨rfl, hq'⟩ := h
      simp only [List.length_cons, List.drop_succ_cons, List.cons.injEq,
        true_and]
      exact ih hq'

theorem allPfx_ne_nil {l : List String} : ∀ q ∈ allPfx l, q ≠ [] := by
  induction l with
  | nil => intro q hq; cases hq
  | cons x rest ih =>
    intro q hq
    rcases List.mem_cons.mp hq with rfl | hq'
    · simp
    · obtain ⟨q', _, rfl⟩ := List.mem_map.mp hq'
      simp

theorem mem_allPfx {l q : List String} :
    q ∈ allPfx l ↔ q ≠ [] ∧ pfxOf q l = true := by
  induction l generalizing q with
  | nil =>
    simp only [allPfx, List.not_mem_nil, false_iff, not_and]
    intro hq
    cases q with
    | nil => exact absurd rfl hq
    | cons s q' => simp [pfxOf_cons_nil]
  | cons x rest ih =>
    simp only [allPfx, List.mem_cons, List.mem_map]
    constructor
    · rintro (rfl | ⟨q', hq', rfl⟩)
      · simp [pfxOf_cons_cons]
      · have := ih.mp hq'
        refine ⟨by simp, ?_⟩
        rw [pfxOf_cons_cons]
        simp [this.2]
    · rintro ⟨hq, hpfx⟩
      cases q with
      | nil => exact absurd rfl hq
      | cons s q' =>
        rw [pfxOf_cons_cons, Bool.and_eq_true, beq_iff_eq] at hpfx
        obtain ⟨rfl, hq'⟩ := hpfx
        cases q' with
        | nil => exact Or.inl rfl
        | cons u q'' =>
          exact Or.inr ⟨u :: q'', ih.mpr ⟨by simp, hq'⟩, rfl⟩

theorem allPfx_length (l : List String) : (allPfx l).length = l.length := by
  induction l with
  | nil => rfl
  | cons x rest ih => simp [allPfx, ih]

theorem allPfx_nodup (l : List String) : (allPfx l).Nodup := by
  induction l with
  | nil => exact List.nodup_nil
  | cons x rest ih =>
    rw [allPfx, List.nodup_cons]
    constructor
    · intro hmem
      obtain ⟨q', hq', heq⟩ := List.mem_map.mp hmem
      have : q' = [] := by
        have := congrArg List.tail heq
        simpa using this.symm
      exact allPfx_ne_nil q' hq' this
    · exact ih.map (fun a b h => by simpa using h)

theorem hasSeq_eq_isSome_getNode : ∀ (q : List String) (t : TreeNode),
    hasSeq t q = (getNode t q).isSome := by
  intro q
  induction q with
  | nil => intro t; rfl
  | cons s q' ih =>
    intro t
    rw [hasSeq_cons, getNode_cons]
    cases findChild t.children s with
    | some c => exact ih c
    | none => rfl

theorem insertParts_children_ne_nil (t : TreeNode) (x : String)
    (p' : List String) : (insertParts t (x :: p')).children ≠ [] := by
  cases t with
  | mk n f cs =>
    simp only [insertParts]
    cases hfc : findChild cs x with
    | some c =>
      have hcs : cs ≠ [] := by
        intro h
        rw [h] at hfc
        simp [findChild] at hfc
      simp only [TreeNode.children_mk]
      unfold replaceChild
      simpa using hcs
    | none => simp

theorem insertParts_children_eq_nil (t : TreeNode) (p : List String) :
    (insertParts t p).children = [] ↔ t.children = [] ∧ p = [] := by
  cases p with
  | nil => simp [insertParts_nil]
  | cons x p' =>
    simp only [insertParts_children_ne_nil t x p', false_iff]
    intro h
    exact absurd h.2 (by simp)

/-- A node already present keeps its position and its `isFile` flag; if
the inserted path runs through it, it becomes the result of inserting the
remaining segments into it. -/
theorem getNode_insert_found (p : List String) :
    ∀ (t : TreeNode) (q : List String), hasSeq t q = true →
      getNode (insertParts t p) q =
        if pfxOf q p
        then (getNode t q).map (fun m => insertParts m (p.drop q.length))
        else getNode t q := by
  induction p with
  | nil =>
    intro t q hq
    rw [insertParts_nil]
    cases q with
    | nil => simp [insertParts_nil]
    | cons s q' => simp [pfxOf_cons_nil]
  | cons x p' ih =>
    intro t q hq
    cases t with
    | mk n f cs =>
      cases q with
      | nil =>
        simp only [getNode_nil, pfxOf_nil, if_pos, List.length_nil,
          List.drop_zero, Option.map]
      | cons s q' =>
        rw [hasSeq_cons, TreeNode.children_mk] at hq
        cases hfd : findChild cs s with
        | none => rw [hfd] at hq; cases hq
        | some d =>
          rw [hfd] at hq
          simp only [insertParts]
          by_cases hsx : s = x
          · subst hsx
            simp only [hfd]
            have hCname : (insertParts d p').name = s := by
              rw [insertParts_name]; exact (findChild_mem hfd).2
            rw [getNode_cons, TreeNode.children_mk]
            simp only [findChild_replace_self hfd hCname]
            rw [ih d q' hq]
            rw [getNode_cons, TreeNode.children_mk]
            simp only [hfd]
            rw [pfxOf_cons_cons]
            simp only [beq_self_eq_true, Bool.true_and, List.length_cons,
              List.drop_succ_cons]
          · cases hfx : findChild cs x with
            | some c =>
              have hcx : (insertParts c p').name = x := by
                rw [insertParts_name]; exact (findChild_mem hfx).2
              simp only [hfx]
              rw [getNode_cons, TreeNode.children_mk,
                findChild_replace_other hsx hcx, hfd]
              rw [pfxOf_cons_cons]
              simp only [show (s == x) = false by simp [hsx],
                Bool.false_and, Bool.false_eq_true, if_false]
              rw [getNode_cons, TreeNode.children_mk, hfd]
            | none =>
              simp only [hfx]
              rw [getNode_cons, TreeNode.children_mk, findChild_append, hfd]
              rw [pfxOf_cons_cons]
              simp only [show (s == x) = false by simp [hsx],
                Bool.false_and, Bool.false_eq_true, if_false]
              rw [getNode_cons, TreeNode.children_mk, hfd]

/-- A node freshly created by the insertion carries `isFile` exactly when
it sits at the end of the inserted path, and it is the chain of the
remaining segments. -/
theorem getNode_insert_new (p : List String) :
    ∀ (t : TreeNode) (q : List String), hasSeq t q = false →
      pfxOf q p = true →
      getNode (insertParts t p) q =
        some (insertParts
          (TreeNode.mk (q.getLast?.getD "") ((p.drop q.length).isEmpty) [])
          (p.drop q.length)) := by
  induction p with
  | nil =>
    intro t q hq hpfx
    cases q with
    | nil => simp at hq
    | cons s q' => simp [pfxOf_cons_nil] at hpfx
  | cons x p' ih =>
    intro t q hq hpfx
    cases t with
    | mk n f cs =>
      cases q with
      | nil => simp at hq
      | cons s q' =>
        rw [pfxOf_cons_cons, Bool.and_eq_true, beq_iff_eq] at hpfx
        obtain ⟨rfl, hq'pfx⟩ := hpfx
        rw [hasSeq_cons, TreeNode.children_mk] at hq
        simp only [insertParts, List.length_cons, List.drop_succ_cons]
        cases hfd : findChild cs s with
        | some c =>
          rw [hfd] at hq
          have hq'ne : q' ≠ [] := by
            intro h
            rw [h] at hq
            simp at hq
          have hcx : (insertParts c p').name = s := by
            rw [insertParts_name]; exact (findChild_mem hfd).2
          rw [getNode_cons, TreeNode.children_mk]
          simp only [findChild_replace_self hfd hcx]
          rw [ih c q' hq hq'pfx]
          congr 3
          cases q' with
          | nil => exact absurd rfl hq'ne
          | cons u q'' => simp
        | none =>
          have hAname : (insertParts (TreeNode.mk s p'.isEmpty []) p').name
              = s := by
            rw [insertParts_name]; rfl
          rw [getNode_cons, TreeNode.children_mk]
          simp only [findChild_append, hfd]
          simp only [show findChild
              [insertParts (TreeNode.mk s p'.isEmpty []) p'] s
              = some (insertParts (TreeNode.mk s p'.isEmpty []) p') from by
            rw [findChild_cons, if_pos (by simp [hAname])]]
          cases q' with
          | nil =>
            simp only [getNode_nil, List.drop_zero]
            rfl
          | cons u q'' =>
            have hbase : hasSeq (TreeNode.mk s p'.isEmpty []) (u :: q'')
                = false := by
              rw [hasSeq_cons]
              simp [findChild]
            rw [ih (TreeNode.mk s p'.isEmpty []) (u :: q'') hbase hq'pfx]
            congr 3

theorem countAll_mk (n : String) (f : Bool) (cs : List TreeNode) :
    countAll (TreeNode.mk n f cs) = 1 + countList cs := by
  simp [countAll]

theorem leafAll_mk (n : String) (f : Bool) (cs : List TreeNode) :
    leafAll (TreeNode.mk n f cs) = (if f then 1 else 0) + leafList cs := by
  simp [leafAll]

theorem dirAll_mk (n : String) (f : Bool) (cs : List TreeNode) :
    dirAll (TreeNode.mk n f cs) = (if f then 0 else 1) + dirList cs := by
  simp [dirAll]

theorem countList_append (cs ds : List TreeNode) :
    countList (cs ++ ds) = countList cs + countList ds := by
  rw [countList_eq_sum, countList_eq_sum, countList_eq_sum,
    List.map_append, List.sum_append]

theorem leafList_append (cs ds : List TreeNode) :
    leafList (cs ++ ds) = leafList cs + leafList ds := by
  rw [leafList_eq_sum, leafList_eq_sum, leafList_eq_sum,
    List.map_append, List.sum_append]

theorem dirList_append (cs ds : List TreeNode) :
    dirList (cs ++ ds) = dirList cs + dirList ds := by
  rw [dirList_eq_sum, dirList_eq_sum, dirList_eq_sum,
    List.map_append, List.sum_append]

theorem nodupTree_mk (n : String) (f : Bool) (cs : List TreeNode) :
    nodupTree (TreeNode.mk n f cs) ↔
      (childNames cs).Nodup ∧ nodupList cs := by
  simp [nodupTree]

theorem nodupList_iff (c : TreeNode) (rest : List TreeNode) :
    nodupList (c :: rest) ↔ nodupTree c ∧ nodupList rest := by
  simp [nodupList]

theorem nodupList_nil : nodupList [] := by simp [nodupList]

theorem nodupList_mem {cs : List TreeNode} (h : nodupList cs)
    {c : TreeNode} (hc : c ∈ cs) : nodupTree c := by
  induction cs with
  | nil => cases hc
  | cons d rest ih =>
    rw [nodupList_iff] at h
    rcases List.mem_cons.mp hc with rfl | hc'
    · exact h.1
    · exact ih h.2 hc'

theorem nodupList_append {cs ds : List TreeNode} (h1 : nodupList cs)
    (h2 : nodupList ds) : nodupList (cs ++ ds) := by
  induction cs with
  | nil => exact h2
  | cons d rest ih =>
    rw [nodupList_iff] at h1
    rw [List.cons_append, nodupList_iff]
    exact ⟨h1.1, ih h1.2⟩

theorem nodupList_replace {cs : List TreeNode} (h : nodupList cs)
    {x : String} {c' : TreeNode} (hc' : nodupTree c') :
    nodupList (replaceChild cs x c') := by
  induction cs with
  | nil => exact h
  | cons d rest ih =>
    rw [nodupList_iff] at h
    rw [replaceChild_cons, nodupList_iff]
    refine ⟨?_, ih h.2⟩
    split
    · exact hc'
    · exact h.1

/-- Insertion preserves uniqueness of children names at every level. -/
theorem nodupTree_insert : ∀ (p : List String) (t : TreeNode),
    nodupTree t → nodupTree (insertParts t p) := by
  intro p
  induction p with
  | nil => intro t h; rwa [insertParts_nil]
  | cons x p' ih =>
    intro t h
    cases t with
    | mk n f cs =>
      rw [nodupTree_mk] at h
      simp only [insertParts]
      cases hfc : findChild cs x with
      | some c =>
        have hcx : (insertParts c p').name = x := by
          rw [insertParts_name]; exact (findChild_mem hfc).2
        rw [nodupTree_mk, childNames_replace hcx]
        exact ⟨h.1, nodupList_replace h.2
          (ih c (nodupList_mem h.2 (findChild_mem hfc).1))⟩
      | none =>
        rw [nodupTree_mk, childNames_append]
        constructor
        · simp only [childNames_cons, childNames_nil]
          rw [List.nodup_append]
          refine ⟨h.1, List.nodup_singleton _, ?_⟩
          intro a ha hb
          simp only [insertParts_name, TreeNode.name_mk, List.mem_singleton]
            at hb
          rw [hb] at ha
          exact (findChild_none_iff.mp hfc) ha
        · refine nodupList_append h.2 ?_
          rw [nodupList_iff]
          refine ⟨ih _ ?_, nodupList_nil⟩
          rw [nodupTree_mk]
          exact ⟨by simp [childNames], nodupList_nil⟩

/-- Inserting a path grows the node count by the number of its prefixes
that were not already reachable. -/
theorem countAll_insert : ∀ (p : List String) (t : TreeNode),
    nodupTree t →
    countAll (insertParts t p) =
      countAll t + ((allPfx p).filter (fun q => !hasSeq t q)).length := by
  intro p
  induction p with
  | nil =>
    intro t _
    rw [insertParts_nil]
    simp [allPfx]
  | cons x p' ih =>
    intro t hnd
    cases t with
    | mk n f cs =>
      rw [nodupTree_mk] at hnd
      simp only [insertParts, allPfx]
      cases hfc : findChild cs x with
      | some c =>
        have hcmem := findChild_mem hfc
        have hcx : (insertParts c p').name = x := by
          rw [insertParts_name]; exact hcmem.2
        have hrepl := sum_map_replace countAll (insertParts c p')
          hfc hnd.1
        have hihc := ih c (nodupList_mem hnd.2 hcmem.1)
        have hseq1 : hasSeq (TreeNode.mk n f cs) [x] = true := by
          rw [hasSeq_cons, TreeNode.children_mk, hfc]
          exact hasSeq_nil c
        have hfilter :
            (([x] :: (allPfx p').map (fun q => x :: q)).filter
              (fun q => !hasSeq (TreeNode.mk n f cs) q)).length =
            ((allPfx p').filter (fun q => !hasSeq c q)).length := by
          rw [List.filter_cons]
          rw [if_neg (by simp [hseq1])]
          rw [List.map_filter]
          rw [List.length_map]
          congr 1
          apply List.filter_congr
          intro q hq
          simp only [Function.comp_apply]
          rw [hasSeq_cons, TreeNode.children_mk, hfc]
        rw [hfilter]
        rw [countAll_mk, countAll_mk, countList_eq_sum, countList_eq_sum]
        omega
      | none =>
        have hbase : nodupTree (TreeNode.mk x p'.isEmpty []) := by
          rw [nodupTree_mk]
          exact ⟨by simp [childNames], nodupList_nil⟩
        have hihA := ih (TreeNode.mk x p'.isEmpty []) hbase
        have hAfull :
            ((allPfx p').filter
              (fun q => !hasSeq (TreeNode.mk x p'.isEmpty []) q)).length
            = p'.length := by
          rw [List.filter_eq_self.mpr, allPfx_length]
          intro q hq
          cases q with
          | nil => exact absurd rfl (allPfx_ne_nil [] hq)
          | cons u q'' =>
            rw [hasSeq_cons]
            simp [findChild]
        have hA : countAll (insertParts (TreeNode.mk x p'.isEmpty []) p')
            = 1 + p'.length := by
          rw [hihA, hAfull, countAll_mk]
          simp [countList]
        have hseq1 : hasSeq (TreeNode.mk n f cs) [x] = false := by
          rw [hasSeq_cons, TreeNode.children_mk, hfc]
        have hfilter :
            (([x] :: (allPfx p').map (fun q => x :: q)).filter
              (fun q => !hasSeq (TreeNode.mk n f cs) q)).length =
            1 + p'.length := by
          rw [List.filter_cons, if_pos (by simp [hseq1])]
          rw [List.filter_eq_self.mpr, List.length_cons, List.length_map,
            allPfx_length]
          · omega
          · intro q hq
            obtain ⟨q', _, rfl⟩ := List.mem_map.mp hq
            rw [hasSeq_cons, TreeNode.children_mk, hfc]
            rfl
        rw [hfilter, countAll_mk, countAll_mk, countList_append]
        have hcl : countList [insertParts (TreeNode.mk x p'.isEmpty []) p']
            = countAll (insertParts (TreeNode.mk x p'.isEmpty []) p') := by
          simp [countList]
        rw [hcl, hA]
        omega

/-- Inserting a path adds exactly one `isFile` node when the path was not
already present, and none otherwise. -/
theorem leafAll_insert : ∀ (p : List String) (t : TreeNode),
    nodupTree t → p ≠ [] →
    leafAll (insertParts t p) =
      leafAll t + (if hasSeq t p then 0 else 1) := by
  intro p
  induction p with
  | nil => intro t _ hne; exact absurd rfl hne
  | cons x p' ih =>
    intro t hnd _
    cases t with
    | mk n f cs =>
      rw [nodupTree_mk] at hnd
      simp only [insertParts]
      cases hfc : findChild cs x with
      | some c =>
        have hcmem := findChild_mem hfc
        have hseq : hasSeq (TreeNode.mk n f cs) (x :: p')
            = hasSeq c p' := by
          rw [hasSeq_cons, TreeNode.children_mk, hfc]
        cases p' with
        | nil =>
          simp only [insertParts_nil]
          have hrepl := sum_map_replace leafAll c hfc hnd.1
          rw [hseq, hasSeq_nil, if_pos rfl]
          rw [leafAll_mk, leafAll_mk, leafList_eq_sum, leafList_eq_sum]
          omega
        | cons u p'' =>
          have hrepl := sum_map_replace leafAll
            (insertParts c (u :: p'')) hfc hnd.1
          have hihc := ih c (nodupList_mem hnd.2 hcmem.1) (by simp)
          rw [hseq]
          rw [leafAll_mk, leafAll_mk, leafList_eq_sum, leafList_eq_sum]
          by_cases hc : hasSeq c (u :: p'')
          · rw [if_pos hc]
            rw [if_pos hc] at hihc
            omega
          · rw [if_neg hc]
            rw [if_neg hc] at hihc
            omega
      | none =>
        have hseq : hasSeq (TreeNode.mk n f cs) (x :: p') = false := by
          rw [hasSeq_cons, TreeNode.children_mk, hfc]
        rw [hseq, if_neg (by simp)]
        have hA : leafAll (insertParts (TreeNode.mk x p'.isEmpty []) p')
            = 1 := by
          cases p' with
          | nil =>
            rw [insertParts_nil, leafAll_mk]
            simp [leafList]
          | cons u p'' =>
            have hbase : nodupTree (TreeNode.mk ((x : String)) (u :: p'').isEmpty []) := by
              rw [nodupTree_mk]
              exact ⟨by simp [childNames], nodupList_nil⟩
            rw [ih _ hbase (by simp)]
            have : hasSeq (TreeNode.mk x (u :: p'').isEmpty []) (u :: p'')
                = false := by
              rw [hasSeq_cons]
              simp [findChild]
            rw [this, if_neg (by simp), leafAll_mk]
            simp [leafList]
        rw [leafAll_mk, leafAll_mk, leafList_append]
        have hla : leafList [insertParts (TreeNode.mk x p'.isEmpty []) p']
            = 1 := by
          simp [leafList, hA]
        omega

/-! ## Fold lemmas: building the whole trie -/

theorem hasSeq_fold (R : List (List String)) :
    ∀ (t : TreeNode) (q : List String),
      hasSeq (R.foldl insertParts t) q =
        (hasSeq t q || R.any (fun r => pfxOf q r)) := by
  induction R with
  | nil => intro t q; simp
  | cons r R' ih =>
    intro t q
    rw [List.foldl_cons, ih, hasSeq_insert]
    simp [Bool.or_assoc]

theorem nodupTree_fold (R : List (List String)) :
    ∀ t : TreeNode, nodupTree t → nodupTree (R.foldl insertParts t) := by
  induction R with
  | nil => intro t h; exact h
  | cons r R' ih =>
    intro t h
    rw [List.foldl_cons]
    exact ih _ (nodupTree_insert r t h)

theorem leafAll_fold (R : List (List String)) :
    ∀ t : TreeNode, nodupTree t →
      (∀ r ∈ R, r ≠ []) → (∀ r ∈ R, hasSeq t r = false) →
      R.Pairwise (fun a b => pfxOf b a = false) →
      leafAll (R.foldl insertParts t) = leafAll t + R.length := by
  induction R with
  | nil => intro t _ _ _ _; simp
  | cons r R' ih =>
    intro t hnd hne hseq hpw
    rw [List.foldl_cons]
    rw [List.pairwise_cons] at hpw
    have h1 : leafAll (insertParts t r) = leafAll t + 1 := by
      rw [leafAll_insert r t hnd (hne r (List.mem_cons_self r R'))]
      rw [hseq r (List.mem_cons_self r R'), if_neg (by simp)]
    rw [ih (insertParts t r) (nodupTree_insert r t hnd)
      (fun b hb => hne b (List.mem_cons_of_mem r hb))
      (fun b hb => by
        rw [hasSeq_insert]
        rw [hseq b (List.mem_cons_of_mem r hb), hpw.1 b hb]
        rfl)
      hpw.2, h1]
    simp [List.length_cons]
    omega

theorem countAll_fold (R : List (List String)) :
    ∀ t : TreeNode, nodupTree t → (∀ r ∈ R, r ≠ []) →
      countAll (R.foldl insertParts t) =
        countAll t +
          ((R.flatMap allPfx).filter (fun q => !hasSeq t q)).toFinset.card := by
  induction R with
  | nil => intro t _ _; simp
  | cons r R' ih =>
    intro t hnd hne
    rw [List.foldl_cons,
      ih (insertParts t r) (nodupTree_insert r t hnd)
        (fun b hb => hne b (List.mem_cons_of_mem r hb)),
      countAll_insert r t hnd]
    have hA : ((allPfx r).filter (fun q => !hasSeq t q)).length =
        ((allPfx r).filter (fun q => !hasSeq t q)).toFinset.card := by
      rw [List.card_toFinset,
        List.Nodup.dedup ((allPfx_nodup r).filter _)]
    have hB :
        ((R'.flatMap allPfx).filter (fun q => !hasSeq (insertParts t r) q))
          = ((R'.flatMap allPfx).filter (fun q => !hasSeq t q)).filter
              (fun q => !pfxOf q r) := by
      rw [List.filter_filter]
      apply List.filter_congr
      intro q _
      rw [hasSeq_insert]
      cases hasSeq t q <;> cases pfxOf q r <;> rfl
    rw [hB]
    set A := (allPfx r).filter (fun q => !hasSeq t q) with hAdef
    set C := (R'.flatMap allPfx).filter (fun q => !hasSeq t q) with hCdef
    have hsplit : (((r :: R').flatMap allPfx).filter (fun q => !hasSeq t q))
        = A ++ C := by
      rw [List.flatMap_cons, List.filter_append]
    rw [hsplit, List.toFinset_append]
    have hdiff : (C.filter (fun q => !pfxOf q r)).toFinset =
        C.toFinset \ A.toFinset := by
      ext q
      simp only [List.mem_toFinset, List.mem_filter, Finset.mem_sdiff]
      constructor
      · rintro ⟨hqC, hqnp⟩
        refine ⟨hqC, ?_⟩
        intro hqA
        rw [hAdef, List.mem_filter] at hqA
        have := (mem_allPfx.mp hqA.1).2
        rw [this] at hqnp
        cases hqnp
      · rintro ⟨hqC, hqnA⟩
        refine ⟨hqC, ?_⟩
        rw [hCdef, List.mem_filter] at hqC
        have hqne : q ≠ [] := by
          obtain ⟨r', _, hr'⟩ := List.mem_flatMap.mp hqC.1
          exact allPfx_ne_nil q hr'
        cases hp : pfxOf q r
        · rfl
        · exact absurd
            (List.mem_filter.mpr ⟨mem_allPfx.mpr ⟨hqne, hp⟩, hqC.2⟩) hqnA
    rw [hdiff]
    have hcard : (A.toFinset ∪ C.toFinset).card =
        A.toFinset.card + (C.toFinset \ A.toFinset).card := by
      rw [← Finset.union_sdiff_self_eq_union]
      exact Finset.card_union_of_disjoint Finset.disjoint_sdiff
    rw [hcard, ← hA]
    omega

theorem getNode_isFile_found (p : List String) (t : TreeNode)
    (q : List String) (hq : hasSeq t q = true) :
    (getNode (insertParts t p) q).map TreeNode.isFile =
      (getNode t q).map TreeNode.isFile := by
  rw [getNode_insert_found p t q hq]
  split
  · cases hgn : getNode t q with
    | none => rfl
    | some m => simp [insertParts_isFile]
  · rfl

theorem hasSeq_mono_insert (p : List String) (t : TreeNode)
    (q : List String) (hq : hasSeq t q = true) :
    hasSeq (insertParts t p) q = true := by
  rw [hasSeq_insert, hq]
  rfl

theorem getNode_none_of_not_hasSeq {t : TreeNode} {q : List String}
    (hq : hasSeq t q = false) : getNode t q = none := by
  have := hasSeq_eq_isSome_getNode q t
  rw [hq] at this
  cases h : getNode t q
  · rfl
  · rw [h] at this; cases this

/-- After building the trie, a node carries `isFile` exactly when its path
is one of the inserted paths (tracked relative to the start tree). -/
theorem isFile_fold (R : List (List String)) :
    ∀ (t : TreeNode) (q : List String), q ≠ [] →
      (∀ r ∈ R, hasSeq t r = false) →
      R.Pairwise (fun a b => pfxOf a b = false ∧ pfxOf b a = false) →
      (getNode (R.foldl insertParts t) q).map TreeNode.isFile =
        (if q ∈ R then some true
         else if hasSeq t q then (getNode t q).map TreeNode.isFile
         else if R.any (fun r => pfxOf q r) then some false
         else none) := by
  induction R with
  | nil =>
    intro t q _ _ _
    simp only [List.foldl_nil, List.not_mem_nil, if_false, List.any_nil]
    cases hq : hasSeq t q with
    | true => rw [if_pos rfl]
    | false =>
      rw [if_neg (by simp), getNode_none_of_not_hasSeq hq]
      rfl
  | cons r R' ih =>
    intro t q hqne hseq hpw
    rw [List.pairwise_cons] at hpw
    have hrt : hasSeq t r = false := hseq r (List.mem_cons_self r R')
    rw [List.foldl_cons]
    rw [ih (insertParts t r) q hqne
      (fun b hb => by
        rw [hasSeq_insert, hseq b (List.mem_cons_of_mem r hb),
          (hpw.1 b hb).2]
        rfl)
      hpw.2]
    by_cases hqR' : q ∈ R'
    · rw [if_pos hqR', if_pos (List.mem_cons_of_mem r hqR')]
    · rw [if_neg hqR']
      by_cases hqr : q = r
      · subst hqr
        have h1 : hasSeq (insertParts t q) q = true := by
          rw [hasSeq_insert, hrt, pfxOf_refl]
          rfl
        have h2 : (getNode (insertParts t q) q).map TreeNode.isFile
            = some true := by
          rw [getNode_insert_new q t q hrt (pfxOf_refl q), List.drop_length]
          simp [insertParts_nil]
        rw [h1, h2, if_pos (List.mem_cons_self q R')]
        simp
      · have hmem : q ∉ r :: R' := by
          intro h
          rcases List.mem_cons.mp h with h' | h'
          · exact hqr h'
          · exact hqR' h'
        rw [if_neg hmem]
        cases hst : hasSeq t q with
        | true =>
          have h1 : hasSeq (insertParts t r) q = true := by
            rw [hasSeq_insert, hst]
            rfl
          rw [h1, getNode_isFile_found r t q hst]
          simp
        | false =>
          cases hpfx : pfxOf q r with
          | true =>
            have h1 : hasSeq (insertParts t r) q = true := by
              rw [hasSeq_insert, hst, hpfx]
              rfl
            have h2 : (getNode (insertParts t r) q).map TreeNode.isFile
                = some false := by
              rw [getNode_insert_new r t q hst hpfx]
              have hne2 : r.drop q.length ≠ [] := fun hd =>
                hqr ((pfxOf_drop_eq_nil hpfx).mp hd)
              cases hdrop : r.drop q.length with
              | nil => exact absurd hdrop hne2
              | cons a l => simp [insertParts_isFile]
            rw [h1, h2, List.any_cons, hpfx]
            simp
          | false =>
            have h1 : hasSeq (insertParts t r) q = false := by
              rw [hasSeq_insert, hst, hpfx]
              rfl
            rw [h1, List.any_cons, hpfx]
            simp

theorem insertParts_children_isEmpty (m : TreeNode) (rest : List String) :
    (insertParts m rest).children.isEmpty
      = (m.children.isEmpty && rest.isEmpty) := by
  cases rest with
  | nil => simp [insertParts_nil]
  | cons x p' =>
    have hne := insertParts_children_ne_nil m x p'
    cases h : (insertParts m (x :: p')).children with
    | nil => exact absurd h hne
    | cons a l => simp

theorem drop_isEmpty_eq_beq {q r : List String} (h : pfxOf q r = true) :
    (r.drop q.length).isEmpty = (q == r) := by
  cases hd : r.drop q.length with
  | nil =>
    have := (pfxOf_drop_eq_nil h).mp hd
    simp [this]
  | cons a l =>
    have hne : q ≠ r := by
      intro he
      rw [(pfxOf_drop_eq_nil h).mpr he] at hd
      cases hd
    simp [hne]

/-- After building the trie, a node is childless exactly when no inserted
path extends its path strictly (and, if it predates the fold, it was
already childless). -/
theorem childEmpty_fold (R : List (List String)) :
    ∀ (t : TreeNode) (q : List String), q ≠ [] →
      (getNode (R.foldl insertParts t) q).map (fun m => m.children.isEmpty) =
        (if hasSeq t q then
          (getNode t q).map (fun m => m.children.isEmpty &&
            !(R.any (fun r => pfxOf q r && !(q == r))))
         else if R.any (fun r => pfxOf q r) then
          some (!(R.any (fun r => pfxOf q r && !(q == r))))
         else none) := by
  induction R with
  | nil =>
    intro t q _
    simp only [List.foldl_nil, List.any_nil, Bool.not_false, Bool.and_true]
    cases hq : hasSeq t q with
    | true => rw [if_pos rfl]
    | false =>
      rw [if_neg (by simp), getNode_none_of_not_hasSeq hq]
      rfl
  | cons r R' ih =>
    intro t q hqne
    rw [List.foldl_cons, ih (insertParts t r) q hqne]
    cases hst : hasSeq t q with
    | true =>
      have h1 : hasSeq (insertParts t r) q = true := by
        rw [hasSeq_insert, hst]
        rfl
      obtain ⟨m, hm⟩ : ∃ m, getNode t q = some m := by
        have := hasSeq_eq_isSome_getNode q t
        rw [hst] at this
        cases h : getNode t q
        · rw [h] at this; cases this
        · exact ⟨_, rfl⟩
      rw [h1, if_pos rfl, if_pos rfl, hm]
      rw [getNode_insert_found r t q hst, hm]
      cases hpfx : pfxOf q r with
      | true =>
        rw [if_pos rfl]
        simp only [Option.map_some']
        rw [insertParts_children_isEmpty, drop_isEmpty_eq_beq hpfx,
          List.any_cons, hpfx]
        congr 1
        cases m.children.isEmpty <;> cases hbe : (q == r) <;>
          cases R'.any (fun r => pfxOf q r && !(q == r)) <;>
          simp [hbe]
      | false =>
        rw [if_neg (by simp)]
        simp only [Option.map_some']
        rw [List.any_cons, hpfx]
        simp
    | false =>
      cases hpfx : pfxOf q r with
      | true =>
        have h1 : hasSeq (insertParts t r) q = true := by
          rw [hasSeq_insert, hst, hpfx]
          rfl
        rw [h1, if_pos rfl, if_neg (by simp)]
        rw [getNode_insert_new r t q hst hpfx]
        simp only [Option.map_some']
        rw [insertParts_children_isEmpty]
        simp only [TreeNode.children_mk, List.isEmpty_nil, Bool.true_and]
        rw [drop_isEmpty_eq_beq hpfx, List.any_cons, hpfx,
          List.any_cons, hpfx]
        rw [if_pos (by rfl)]
        congr 1
        cases hbe : (q == r) <;>
          cases R'.any (fun r => pfxOf q r && !(q == r)) <;>
          simp [hbe]
      | false =>
        have h1 : hasSeq (insertParts t r) q = false := by
          rw [hasSeq_insert, hst, hpfx]
          rfl
        rw [h1, List.any_cons, hpfx]
        simp [hpfx]

theorem getNode_append (q₁ : List String) :
    ∀ (t : TreeNode) (q₂ : List String),
      getNode t (q₁ ++ q₂) =
        match getNode t q₁ with
        | some m => getNode m q₂
        | none => none := by
  induction q₁ with
  | nil => intro t q₂; simp
  | cons s q' ih =>
    intro t q₂
    rw [List.cons_append, getNode_cons, getNode_cons]
    cases findChild t.children s with
    | some c => exact ih c q₂
    | none => rfl

theorem sizeOf_child_lt {c : TreeNode} {t : TreeNode}
    (hc : c ∈ t.children) : sizeOf c < sizeOf t := by
  cases t with
  | mk n f cs =>
    have h1 : sizeOf c < sizeOf cs := List.sizeOf_lt_of_mem hc
    simp only [TreeNode.mk.sizeOf_spec]
    omega

theorem flagsOk_mk (n : String) (f : Bool) (cs : List TreeNode) :
    flagsOk (TreeNode.mk n f cs) ↔ ((f = true ↔ cs = []) ∧ flagsList cs) := by
  simp [flagsOk]

theorem flagsList_iff (c : TreeNode) (rest : List TreeNode) :
    flagsList (c :: rest) ↔ flagsOk c ∧ flagsList rest := by
  simp [flagsList]

theorem flagsList_nil : flagsList [] := by simp [flagsList]

theorem flagsList_of_forall {cs : List TreeNode}
    (h : ∀ c ∈ cs, flagsOk c) : flagsList cs := by
  induction cs with
  | nil => exact flagsList_nil
  | cons c rest ih =>
    rw [flagsList_iff]
    exact ⟨h c (List.mem_cons_self c rest),
      ih (fun d hd => h d (List.mem_cons_of_mem c hd))⟩

/-- If every node reachable by a non-empty path satisfies
`isFile ↔ childless`, the flags invariant holds below the root. -/
theorem flags_from_pointwise (T : TreeNode) (hnd : nodupTree T)
    (H : ∀ (q : List String) (n : TreeNode), q ≠ [] → getNode T q = some n →
      (n.isFile = true ↔ n.children = [])) :
    flagsList T.children := by
  suffices aux : ∀ (k : Nat) (m : TreeNode), sizeOf m ≤ k →
      ∀ q : List String, q ≠ [] → getNode T q = some m → nodupTree m →
        flagsOk m by
    apply flagsList_of_forall
    intro c hc
    cases hT : T with
    | mk n f cs =>
      subst hT
      rw [nodupTree_mk] at hnd
      simp only [TreeNode.children_mk] at hc
      refine aux (sizeOf c) c le_rfl [c.name] (by simp) ?_
        (nodupList_mem hnd.2 hc)
      rw [getNode_cons]
      simp only [TreeNode.children_mk]
      rw [findChild_self hnd.1 hc]
      rfl
  intro k
  induction k with
  | zero =>
    intro m hm
    exfalso
    cases m with
    | mk n f cs => simp only [TreeNode.mk.sizeOf_spec] at hm; omega
  | succ k ih =>
    intro m hm q hq hget hndm
    cases m with
    | mk n f cs =>
      rw [flagsOk_mk]
      rw [nodupTree_mk] at hndm
      constructor
      · exact H q (TreeNode.mk n f cs) hq hget
      · apply flagsList_of_forall
        intro c hc
        refine ih c ?_ (q ++ [c.name]) (by simp) ?_
          (nodupList_mem hndm.2 hc)
        · have := sizeOf_child_lt (t := TreeNode.mk n f cs)
            (c := c) (by simpa using hc)
          omega
        · rw [getNode_append]
          simp only [hget]
          rw [getNode_cons]
          simp only [TreeNode.children_mk]
          rw [findChild_self hndm.1 hc]
          rfl

theorem namesOk_mk (n : String) (f : Bool) (cs : List TreeNode) :
    namesOk (TreeNode.mk n f cs) ↔
      (n.data.getLast? ≠ some '/' ∧ namesList cs) := by
  simp [namesOk]

theorem namesList_iff (c : TreeNode) (rest : List TreeNode) :
    namesList (c :: rest) ↔ namesOk c ∧ namesList rest := by
  simp [namesList]

theorem namesList_nil : namesList [] := by simp [namesList]

theorem namesList_mem {cs : List TreeNode} (h : namesList cs)
    {c : TreeNode} (hc : c ∈ cs) : namesOk c := by
  induction cs with
  | nil => cases hc
  | cons d rest ih =>
    rw [namesList_iff] at h
    rcases List.mem_cons.mp hc with rfl | hc'
    · exact h.1
    · exact ih h.2 hc'

theorem namesList_append {cs ds : List TreeNode} (h1 : namesList cs)
    (h2 : namesList ds) : namesList (cs ++ ds) := by
  induction cs with
  | nil => exact h2
  | cons d rest ih =>
    rw [namesList_iff] at h1
    rw [List.cons_append, namesList_iff]
    exact ⟨h1.1, ih h1.2⟩

theorem namesList_replace {cs : List TreeNode} (h : namesList cs)
    {x : String} {c' : TreeNode} (hc' : namesOk c') :
    namesList (replaceChild cs x c') := by
  induction cs with
  | nil => exact h
  | cons d rest ih =>
    rw [namesList_iff] at h
    rw [replaceChild_cons, namesList_iff]
    refine ⟨?_, ih h.2⟩
    split
    · exact hc'
    · exact h.1

/-- Insertion of a path all of whose segments are slash-free preserves
slash-freedom of all node names. -/
theorem namesOk_insert : ∀ (p : List String) (t : TreeNode),
    (∀ s ∈ p, s.data.getLast? ≠ some '/') →
    namesOk t → namesOk (insertParts t p) := by
  intro p
  induction p with
  | nil => intro t _ h; rwa [insertParts_nil]
  | cons x p' ih =>
    intro t hp h
    cases t with
    | mk n f cs =>
      rw [namesOk_mk] at h
      simp only [insertParts]
      cases hfc : findChild cs x with
      | some c =>
        rw [namesOk_mk]
        refine ⟨h.1, namesList_replace h.2 ?_⟩
        exact ih c (fun s hs => hp s (List.mem_cons_of_mem x hs))
          (namesList_mem h.2 (findChild_mem hfc).1)
      | none =>
        rw [namesOk_mk]
        refine ⟨h.1, namesList_append h.2 ?_⟩
        rw [namesList_iff]
        refine ⟨ih _ (fun s hs => hp s (List.mem_cons_of_mem x hs)) ?_,
          namesList_nil⟩
        rw [namesOk_mk]
        exact ⟨hp x (List.mem_cons_self x p'), namesList_nil⟩

theorem namesOk_fold (R : List (List String)) :
    ∀ t : TreeNode, (∀ r ∈ R, ∀ s ∈ r, s.data.getLast? ≠ some '/') →
      namesOk t → namesOk (R.foldl insertParts t) := by
  induction R with
  | nil => intro t _ h; exact h
  | cons r R' ih =>
    intro t hp h
    rw [List.foldl_cons]
    exact ih _ (fun b hb => hp b (List.mem_cons_of_mem r hb))
      (namesOk_insert r t (hp r (List.mem_cons_self r R')) h)

/-! ## Permutation facts about `sortNodes` -/

theorem insertSorted_perm (x : TreeNode) (l : List TreeNode) :
    (insertSorted x l).Perm (x :: l) := by
  induction l with
  | nil => exact List.Perm.refl _
  | cons y ys ih =>
    rw [insertSorted]
    split
    · exact List.Perm.refl _
    · exact (ih.cons y).trans (List.Perm.swap x y ys)

theorem sortNodes_perm (l : List TreeNode) : (sortNodes l).Perm l := by
  induction l with
  | nil => exact List.Perm.refl _
  | cons x xs ih =>
    rw [sortNodes]
    exact (insertSorted_perm x (sortNodes xs)).trans (ih.cons x)

theorem mem_sortNodes {c : TreeNode} {l : List TreeNode} :
    c ∈ sortNodes l ↔ c ∈ l := (sortNodes_perm l).mem_iff

theorem countList_sortNodes (cs : List TreeNode) :
    countList (sortNodes cs) = countList cs := by
  rw [countList_eq_sum, countList_eq_sum]
  exact ((sortNodes_perm cs).map countAll).sum_eq

theorem leafList_sortNodes (cs : List TreeNode) :
    leafList (sortNodes cs) = leafList cs := by
  rw [leafList_eq_sum, leafList_eq_sum]
  exact ((sortNodes_perm cs).map leafAll).sum_eq

theorem dirList_sortNodes (cs : List TreeNode) :
    dirList (sortNodes cs) = dirList cs := by
  rw [dirList_eq_sum, dirList_eq_sum]
  exact ((sortNodes_perm cs).map dirAll).sum_eq

theorem flagsList_mem {cs : List TreeNode} (h : flagsList cs)
    {c : TreeNode} (hc : c ∈ cs) : flagsOk c := by
  induction cs with
  | nil => cases hc
  | cons d rest ih =>
    rw [flagsList_iff] at h
    rcases List.mem_cons.mp hc with rfl | hc'
    · exact h.1
    · exact ih h.2 hc'

/-- Directory nodes and file nodes partition the node count. -/
theorem dirList_add_leafList : ∀ (k : Nat) (cs : List TreeNode),
    sizeOf cs ≤ k → dirList cs + leafList cs = countList cs := by
  intro k
  induction k with
  | zero =>
    intro cs hk
    exfalso
    cases cs <;>
      simp only [List.nil.sizeOf_spec, List.cons.sizeOf_spec] at hk <;> omega
  | succ k ih =>
    intro cs hk
    cases cs with
    | nil => simp [dirList, leafList, countList]
    | cons c rest =>
      cases c with
      | mk n f cs' =>
        have hcs' : sizeOf cs' ≤ k := by
          simp only [List.cons.sizeOf_spec, TreeNode.mk.sizeOf_spec] at hk
          omega
        have hrest : sizeOf rest ≤ k := by
          simp only [List.cons.sizeOf_spec, TreeNode.mk.sizeOf_spec] at hk
          omega
        have h1 := ih cs' hcs'
        have h2 := ih rest hrest
        simp only [dirList, leafList, countList, dirAll_mk, leafAll_mk,
          countAll_mk]
        cases f with
        | false =>
          rw [if_neg (by simp : ¬(false = true)),
            if_neg (by simp : ¬(false = true))]
          omega
        | true =>
          rw [if_pos rfl, if_pos rfl]
          omega

theorem dirAll_add_leafAll (t : TreeNode) :
    dirAll t + leafAll t = countAll t := by
  cases t with
  | mk n f cs =>
    rw [dirAll_mk, leafAll_mk, countAll_mk]
    have := dirList_add_leafList (sizeOf cs) cs le_rfl
    cases f with
    | false =>
      rw [if_neg (by simp : ¬(false = true)),
        if_neg (by simp : ¬(false = true))]
      omega
    | true =>
      rw [if_pos rfl, if_pos rfl]
      omega

/-! ## Line classification: the trailing-slash observable -/

theorem endsWithSlash_append_slash (s : String) :
    endsWithSlash (s ++ "/") = true := by
  unfold endsWithSlash
  rw [String.data_append, List.getLast?_append]
  rfl

theorem endsWithSlash_of_no_slash_end (name : String)
    (h : name.data.getLast? ≠ some '/') : endsWithSlash name = false := by
  unfold endsWithSlash
  cases hn : name.data.getLast? with
  | none => rfl
  | some c =>
    have hc : c ≠ '/' := fun he => h (by rw [hn, he])
    simp [hc]

theorem endsWithSlash_line_false (pre con name : String)
    (hcon : con.data.getLast? = some ' ')
    (hname : name.data.getLast? ≠ some '/') :
    endsWithSlash (pre ++ con ++ name) = false := by
  unfold endsWithSlash
  rw [String.data_append, String.data_append, List.append_assoc,
    List.getLast?_append, List.getLast?_append]
  cases hn : name.data.getLast? with
  | none => simp [hcon, Option.or]
  | some c =>
    have hc : c ≠ '/' := fun he => hname (by rw [hn, he])
    simp [Option.or, hc]

/-! ## `split('/')` pieces contain no slash -/

theorem splitChars_no_slash : ∀ (l acc : List Char), (∀ ch ∈ acc, ch ≠ '/') →
    ∀ p ∈ splitChars l acc, ∀ ch ∈ p.data, ch ≠ '/' := by
  intro l
  induction l with
  | nil =>
    intro acc hacc p hp ch hch
    simp only [splitChars, List.mem_singleton] at hp
    subst hp
    have : ch ∈ acc.reverse := hch
    exact hacc ch (List.mem_reverse.mp this)
  | cons c rest ih =>
    intro acc hacc p hp ch hch
    simp only [splitChars] at hp
    by_cases hc : c = '/'
    · rw [if_pos hc] at hp
      rcases List.mem_cons.mp hp with rfl | hp'
      · have : ch ∈ acc.reverse := hch
        exact hacc ch (List.mem_reverse.mp this)
      · exact ih [] (by simp) p hp' ch hch
    · rw [if_neg hc] at hp
      refine ih (c :: acc) ?_ p hp ch hch
      intro d hd
      rcases List.mem_cons.mp hd with rfl | hd'
      · exact hc
      · exact hacc d hd'

theorem jsSplitSlash_no_slash {r s : String} (hs : s ∈ jsSplitSlash r) :
    ∀ ch ∈ s.data, ch ≠ '/' :=
  splitChars_no_slash r.data [] (by simp) s hs

theorem jsSplitSlash_last_ne_slash {r s : String} (hs : s ∈ jsSplitSlash r) :
    s.data.getLast? ≠ some '/' := by
  intro h
  exact jsSplitSlash_no_slash hs '/' (List.mem_of_getLast?_eq_some h) rfl

theorem splitChars_length : ∀ (l acc : List Char),
    (splitChars l acc).length = 1 + l.count '/' := by
  intro l
  induction l with
  | nil => intro acc; simp [splitChars]
  | cons c rest ih =>
    intro acc
    by_cases hc : c = '/'
    · subst hc
      simp only [splitChars]
      rw [if_pos trivial]
      simp only [List.length_cons, ih, List.count_cons_self]
      omega
    · simp only [splitChars, if_neg hc, ih]
      rw [List.count_cons]
      simp [hc]

theorem jsSplitSlash_length_ge_two (a b : String) :
    2 ≤ (jsSplitSlash (a ++ "/" ++ b)).length := by
  unfold jsSplitSlash
  rw [splitChars_length]
  have hmem : '/' ∈ (a ++ "/" ++ b).data := by
    rw [String.data_append, String.data_append]
    refine List.mem_append.mpr (Or.inl (List.mem_append.mpr (Or.inr ?_)))
    decide
  have := List.count_pos_iff.mpr hmem
  omega

/-! ## Folding `insertUnique` over fresh elements -/

theorem foldl_insertUnique_nodup : ∀ (xs acc : List String), acc.Nodup →
    (∀ x ∈ xs, x ∉ acc) → xs.Nodup →
    List.foldl insertUnique acc xs = acc ++ xs := by
  intro xs
  induction xs with
  | nil => intro acc _ _ _; simp
  | cons x rest ih =>
    intro acc hacc hdisj hnd
    rw [List.foldl_cons]
    have hx : x ∉ acc := hdisj x (List.mem_cons_self x rest)
    rw [show insertUnique acc x = acc ++ [x] from by
      rw [insertUnique, if_neg hx]]
    have h1 : (acc ++ [x]).Nodup := by
      rw [List.nodup_append]
      refine ⟨hacc, List.nodup_singleton x, ?_⟩
      intro a ha hax
      rw [List.mem_singleton] at hax
      exact hx (hax ▸ ha)
    have h2 : ∀ y ∈ rest, y ∉ acc ++ [x] := by
      intro y hy hmem
      rcases List.mem_append.mp hmem with hya | hyx
      · exact hdisj y (List.mem_cons_of_mem x hy) hya
      · rw [List.mem_singleton] at hyx
        exact (List.nodup_cons.mp hnd).1 (hyx ▸ hy)
    rw [ih (acc ++ [x]) h1 h2 (List.nodup_cons.mp hnd).2]
    simp

/-- With injectively mapped relative paths, the `relativePaths` set is
just the map of the file set. -/
theorem relativePathsOf_eq_map (fs : FS) (fileSet : List String)
    (hnd : (fileSet.map (fileRelativePath fs)).Nodup) :
    relativePathsOf fs fileSet = fileSet.map (fileRelativePath fs) := by
  unfold relativePathsOf
  rw [← List.foldl_map (fileRelativePath fs) insertUnique fileSet []]
  rw [foldl_insertUnique_nodup _ [] List.nodup_nil (by simp) hnd]
  simp

theorem buildTrie_eq_fold (rels : List String) :
    buildTrie rels =
      (rels.map jsSplitSlash).foldl insertParts (TreeNode.mk "" false []) := by
  unfold buildTrie
  rw [List.foldl_map]

/-! ## Rendered lines split into directory lines and leaf lines -/

theorem renderCond_true (nc : String) {fc : Bool} {csc : List TreeNode}
    (hfc : fc = false) (hne : csc ≠ []) :
    ((TreeNode.mk nc fc csc).children.length > 0 &&
      !(TreeNode.mk nc fc csc).isFile) = true := by
  subst hfc
  simp [TreeNode.children, TreeNode.isFile, List.length_pos, hne]

theorem renderCond_false (nc : String) {fc : Bool} {csc : List TreeNode}
    (hfc : fc = true) (hcs : csc = []) :
    ((TreeNode.mk nc fc csc).children.length > 0 &&
      !(TreeNode.mk nc fc csc).isFile) = false := by
  subst hfc
  subst hcs
  simp [TreeNode.children, TreeNode.isFile]

theorem renderGo_filter : ∀ (k : Nat) (cs : List TreeNode), sizeOf cs ≤ k →
    (∀ c ∈ cs, flagsOk c) → (∀ c ∈ cs, namesOk c) → ∀ pre : String,
    (renderGo pre cs).filter endsWithSlash = dirGo pre cs ∧
    (renderGo pre cs).filter (fun s => !endsWithSlash s) = leafGo pre cs := by
  intro k
  induction k with
  | zero =>
    intro cs hk
    exfalso
    cases cs <;>
      simp only [List.nil.sizeOf_spec, List.cons.sizeOf_spec] at hk <;> omega
  | succ k ih =>
    intro cs hk hflags hnames pre
    cases cs with
    | nil => simp [renderGo, dirGo, leafGo]
    | cons c rest =>
      cases rest with
      | nil =>
        have hf := hflags c (List.mem_cons_self c [])
        have hn := hnames c (List.mem_cons_self c [])
        cases c with
        | mk nc fc csc =>
          rw [flagsOk_mk] at hf
          rw [namesOk_mk] at hn
          by_cases hfc : fc = true
          · have hcs : csc = [] := hf.1.mp hfc
            subst hcs
            have hcond := renderCond_false nc hfc rfl
            have hline : endsWithSlash (pre ++ "└── " ++ nc) = false :=
              endsWithSlash_line_false pre "└── " nc rfl hn.1
            constructor
            · simp only [renderGo, dirGo, hcond]
              rw [if_neg (by simp), if_neg (by simp)]
              simp [hline]
            · simp only [renderGo, leafGo, hcond]
              rw [if_neg (by simp), if_neg (by simp)]
              simp [hline]
          · have hfc' : fc = false := by revert hfc; cases fc <;> simp
            subst hfc'
            have hne : csc ≠ [] := fun h => by
              exact absurd (hf.1.mpr h) (by simp)
            have hcond := renderCond_true nc rfl hne
            have hsz : sizeOf (sortNodes csc) ≤ k := by
              rw [sizeOf_sortNodes]
              simp only [List.cons.sizeOf_spec, List.nil.sizeOf_spec,
                TreeNode.mk.sizeOf_spec] at hk
              omega
            have hfl : ∀ d ∈ sortNodes csc, flagsOk d :=
              fun d hd => flagsList_mem hf.2 (mem_sortNodes.mp hd)
            have hnl : ∀ d ∈ sortNodes csc, namesOk d :=
              fun d hd => namesList_mem hn.2 (mem_sortNodes.mp hd)
            obtain ⟨hpos, hneg⟩ :=
              ih (sortNodes csc) hsz hfl hnl (pre ++ "    ")
            have hslash : endsWithSlash (pre ++ "└── " ++ nc ++ "/") = true :=
              endsWithSlash_append_slash (pre ++ "└── " ++ nc)
            constructor
            · simp only [renderGo, dirGo, hcond, renderLines, dirLines]
              rw [if_pos trivial, if_pos trivial]
              rw [List.filter_cons]
              simp [TreeNode.name, hslash, hpos]
            · simp only [renderGo, leafGo, hcond, renderLines, leafLines]
              rw [if_pos trivial, if_pos trivial]
              rw [List.filter_cons]
              simp [TreeNode.name, hslash, hneg]
      | cons c' rest' =>
        have hf := hflags c (List.mem_cons_self c (c' :: rest'))
        have hn := hnames c (List.mem_cons_self c (c' :: rest'))
        cases c with
        | mk nc fc csc =>
          have htailsz : sizeOf (c' :: rest') ≤ k := by
            simp only [List.cons.sizeOf_spec, TreeNode.mk.sizeOf_spec] at hk
            simp only [List.cons.sizeOf_spec]
            omega
          obtain ⟨htpos, htneg⟩ := ih (c' :: rest') htailsz
            (fun d hd => hflags d (List.mem_cons_of_mem _ hd))
            (fun d hd => hnames d (List.mem_cons_of_mem _ hd)) pre
          rw [flagsOk_mk] at hf
          rw [namesOk_mk] at hn
          by_cases hfc : fc = true
          · have hcs : csc = [] := hf.1.mp hfc
            subst hcs
            have hcond := renderCond_false nc hfc rfl
            have hline : endsWithSlash (pre ++ "├── " ++ nc) = false :=
              endsWithSlash_line_false pre "├── " nc rfl hn.1
            constructor
            · simp only [renderGo, dirGo, hcond]
              rw [if_neg (by simp), if_neg (by simp)]
              rw [List.filter_append, htpos]
              simp [hline]
            · simp only [renderGo, leafGo, hcond]
              rw [if_neg (by simp), if_neg (by simp)]
              rw [List.filter_append, htneg]
              simp [hline]
          · have hfc' : fc = false := by revert hfc; cases fc <;> simp
            subst hfc'
            have hne : csc ≠ [] := fun h => by
              exact absurd (hf.1.mpr h) (by simp)
            have hcond := renderCond_true nc rfl hne
            have hsz : sizeOf (sortNodes csc) ≤ k := by
              rw [sizeOf_sortNodes]
              simp only [List.cons.sizeOf_spec, TreeNode.mk.sizeOf_spec] at hk
              omega
            have hfl : ∀ d ∈ sortNodes csc, flagsOk d :=
              fun d hd => flagsList_mem hf.2 (mem_sortNodes.mp hd)
            have hnl : ∀ d ∈ sortNodes csc, namesOk d :=
              fun d hd => namesList_mem hn.2 (mem_sortNodes.mp hd)
            obtain ⟨hpos, hneg⟩ :=
              ih (sortNodes csc) hsz hfl hnl (pre ++ "│   ")
            have hslash : endsWithSlash (pre ++ "├── " ++ nc ++ "/") = true :=
              endsWithSlash_append_slash (pre ++ "├── " ++ nc)
            constructor
            · simp only [renderGo, dirGo, hcond, renderLines, dirLines]
              rw [if_pos trivial, if_pos trivial]
              rw [List.filter_append, htpos, List.filter_cons]
              simp [TreeNode.name, hslash, hpos]
            · simp only [renderGo, leafGo, hcond, renderLines, leafLines]
              rw [if_pos trivial, if_pos trivial]
              rw [List.filter_append, htneg, List.filter_cons]
              simp [TreeNode.name, hslash, hneg]

theorem dirGo_length : ∀ (k : Nat) (cs : List TreeNode), sizeOf cs ≤ k →
    (∀ c ∈ cs, flagsOk c) → ∀ pre : String,
    (dirGo pre cs).length = dirList cs := by
  intro k
  induction k with
  | zero =>
    intro cs hk
    exfalso
    cases cs <;>
      simp only [List.nil.sizeOf_spec, List.cons.sizeOf_spec] at hk <;> omega
  | succ k ih =>
    intro cs hk hflags pre
    cases cs with
    | nil => simp [dirGo, dirList]
    | cons c rest =>
      cases rest with
      | nil =>
        have hf := hflags c (List.mem_cons_self c [])
        cases c with
        | mk nc fc csc =>
          rw [flagsOk_mk] at hf
          by_cases hfc : fc = true
          · subst hfc
            have hcs : csc = [] := hf.1.mp rfl
            subst hcs
            have hcond := renderCond_false nc rfl rfl
            simp only [dirGo, hcond]
            rw [if_neg (by simp)]
            simp [dirList, dirAll_mk]
          · have hfc' : fc = false := by revert hfc; cases fc <;> simp
            subst hfc'
            have hne : csc ≠ [] := fun h => by
              exact absurd (hf.1.mpr h) (by simp)
            have hcond := renderCond_true nc rfl hne
            have hsz : sizeOf (sortNodes csc) ≤ k := by
              rw [sizeOf_sortNodes]
              simp only [List.cons.sizeOf_spec, List.nil.sizeOf_spec,
                TreeNode.mk.sizeOf_spec] at hk
              omega
            have hfl : ∀ d ∈ sortNodes csc, flagsOk d :=
              fun d hd => flagsList_mem hf.2 (mem_sortNodes.mp hd)
            simp only [dirGo, hcond, dirLines]
            rw [if_pos trivial]
            rw [List.length_cons, ih (sortNodes csc) hsz hfl (pre ++ "    ")]
            rw [dirList_sortNodes]
            simp [dirList, dirAll_mk]
            omega
      | cons c' rest' =>
        have hf := hflags c (List.mem_cons_self c (c' :: rest'))
        cases c with
        | mk nc fc csc =>
          have htailsz : sizeOf (c' :: rest') ≤ k := by
            simp only [List.cons.sizeOf_spec, TreeNode.mk.sizeOf_spec] at hk
            simp only [List.cons.sizeOf_spec]
            omega
          have htail := ih (c' :: rest') htailsz
            (fun d hd => hflags d (List.mem_cons_of_mem _ hd)) pre
          rw [flagsOk_mk] at hf
          by_cases hfc : fc = true
          · subst hfc
            have hcs : csc = [] := hf.1.mp rfl
            subst hcs
            have hcond := renderCond_false nc rfl rfl
            simp only [dirGo, hcond]
            rw [if_neg (by simp)]
            rw [List.nil_append, htail]
            simp [dirList, dirAll_mk]
          · have hfc' : fc = false := by revert hfc; cases fc <;> simp
            subst hfc'
            have hne : csc ≠ [] := fun h => by
              exact absurd (hf.1.mpr h) (by simp)
            have hcond := renderCond_true nc rfl hne
            have hsz : sizeOf (sortNodes csc) ≤ k := by
              rw [sizeOf_sortNodes]
              simp only [List.cons.sizeOf_spec, TreeNode.mk.sizeOf_spec] at hk
              omega
            have hfl : ∀ d ∈ sortNodes csc, flagsOk d :=
              fun d hd => flagsList_mem hf.2 (mem_sortNodes.mp hd)
            simp only [dirGo, hcond, dirLines]
            rw [if_pos trivial]
            rw [List.length_append, List.length_cons,
              ih (sortNodes csc) hsz hfl (pre ++ "│   "), htail]
            rw [dirList_sortNodes]
            simp [dirList, dirAll_mk]
            omega

theorem leafGo_length : ∀ (k : Nat) (cs : List TreeNode), sizeOf cs ≤ k →
    (∀ c ∈ cs, flagsOk c) → ∀ pre : String,
    (leafGo pre cs).length = leafList cs := by
  intro k
  induction k with
  | zero =>
    intro cs hk
    exfalso
    cases cs <;>
      simp only [List.nil.sizeOf_spec, List.cons.sizeOf_spec] at hk <;> omega
  | succ k ih =>
    intro cs hk hflags pre
    cases cs with
    | nil => simp [leafGo, leafList]
    | cons c rest =>
      cases rest with
      | nil =>
        have hf := hflags c (List.mem_cons_self c [])
        cases c with
        | mk nc fc csc =>
          rw [flagsOk_mk] at hf
          by_cases hfc : fc = true
          · subst hfc
            have hcs : csc = [] := hf.1.mp rfl
            subst hcs
            have hcond := renderCond_false nc rfl rfl
            simp only [leafGo, hcond]
            rw [if_neg (by simp)]
            simp [leafList, leafAll_mk]
          · have hfc' : fc = false := by revert hfc; cases fc <;> simp
            subst hfc'
            have hne : csc ≠ [] := fun h => by
              exact absurd (hf.1.mpr h) (by simp)
            have hcond := renderCond_true nc rfl hne
            have hsz : sizeOf (sortNodes csc) ≤ k := by
              rw [sizeOf_sortNodes]
              simp only [List.cons.sizeOf_spec, List.nil.sizeOf_spec,
                TreeNode.mk.sizeOf_spec] at hk
              omega
            have hfl : ∀ d ∈ sortNodes csc, flagsOk d :=
              fun d hd => flagsList_mem hf.2 (mem_sortNodes.mp hd)
            simp only [leafGo, hcond, leafLines]
            rw [if_pos trivial]
            rw [ih (sortNodes csc) hsz hfl (pre ++ "    ")]
            rw [leafList_sortNodes]
            simp [leafList, leafAll_mk]
      | cons c' rest' =>
        have hf := hflags c (List.mem_cons_self c (c' :: rest'))
        cases c with
        | mk nc fc csc =>
          have htailsz : sizeOf (c' :: rest') ≤ k := by
            simp only [List.cons.sizeOf_spec, TreeNode.mk.sizeOf_spec] at hk
            simp only [List.cons.sizeOf_spec]
            omega
          have htail := ih (c' :: rest') htailsz
            (fun d hd => hflags d (List.mem_cons_of_mem _ hd)) pre
          rw [flagsOk_mk] at hf
          by_cases hfc : fc = true
          · subst hfc
            have hcs : csc = [] := hf.1.mp rfl
            subst hcs
            have hcond := renderCond_false nc rfl rfl
            simp only [leafGo, hcond]
            rw [if_neg (by simp)]
            rw [List.cons_append, List.nil_append, List.length_cons, htail]
            simp [leafList, leafAll_mk]
            omega
          · have hfc' : fc = false := by revert hfc; cases fc <;> simp
            subst hfc'
            have hne : csc ≠ [] := fun h => by
              exact absurd (hf.1.mpr h) (by simp)
            have hcond := renderCond_true nc rfl hne
            have hsz : sizeOf (sortNodes csc) ≤ k := by
              rw [sizeOf_sortNodes]
              simp only [List.cons.sizeOf_spec, TreeNode.mk.sizeOf_spec] at hk
              omega
            have hfl : ∀ d ∈ sortNodes csc, flagsOk d :=
              fun d hd => flagsList_mem hf.2 (mem_sortNodes.mp hd)
            simp only [leafGo, hcond, leafLines]
            rw [if_pos trivial]
            rw [List.length_append,
              ih (sortNodes csc) hsz hfl (pre ++ "│   "), htail]
            rw [leafList_sortNodes]
            simp [leafList, leafAll_mk]

/-! ## Structure of a trie built from pairwise non-prefix segment lists -/

theorem hasSeq_root0 (q : List String) (hq : q ≠ []) :
    hasSeq (TreeNode.mk "" false []) q = false := by
  cases q with
  | nil => exact absurd rfl hq
  | cons s q' => simp [hasSeq, findChild, TreeNode.children]

theorem nodupTree_root0 : nodupTree (TreeNode.mk "" false []) := by
  rw [nodupTree_mk]
  exact ⟨by simp [childNames], nodupList_nil⟩

theorem buildTrie_structure (R : List (List String))
    (hne : ∀ r ∈ R, r ≠ [])
    (hpw : R.Pairwise (fun a b => pfxOf a b = false ∧ pfxOf b a = false)) :
    nodupTree (R.foldl insertParts (TreeNode.mk "" false [])) ∧
    flagsList (R.foldl insertParts (TreeNode.mk "" false [])).children ∧
    leafAll (R.foldl insertParts (TreeNode.mk "" false [])) = R.length ∧
    countAll (R.foldl insertParts (TreeNode.mk "" false [])) =
      1 + (R.flatMap allPfx).toFinset.card := by
  have hseq0 : ∀ r ∈ R, hasSeq (TreeNode.mk "" false []) r = false :=
    fun r hr => hasSeq_root0 r (hne r hr)
  have hnd := nodupTree_fold R (TreeNode.mk "" false []) nodupTree_root0
  refine ⟨hnd, ?_, ?_, ?_⟩
  · apply flags_from_pointwise _ hnd
    intro q n hq hget
    have hFile := isFile_fold R (TreeNode.mk "" false []) q hq hseq0 hpw
    have hKids := childEmpty_fold R (TreeNode.mk "" false []) q hq
    rw [hget, Option.map_some'] at hFile hKids
    rw [hasSeq_root0 q hq] at hFile hKids
    rw [if_neg (show ¬(false = true) by simp)] at hFile hKids
    by_cases hmem : q ∈ R
    · rw [if_pos hmem] at hFile
      have hfile : n.isFile = true := Option.some.inj hFile
      have hany : R.any (fun r => pfxOf q r) = true :=
        List.any_eq_true.mpr ⟨q, hmem, pfxOf_refl q⟩
      rw [if_pos hany] at hKids
      have hinner : R.any (fun r => pfxOf q r && !(q == r)) = false := by
        cases hA2 : R.any (fun r => pfxOf q r && !(q == r)) with
        | false => rfl
        | true =>
          obtain ⟨r, hr, hcnd⟩ := List.any_eq_true.mp hA2
          rw [Bool.and_eq_true, Bool.not_eq_true', beq_eq_false_iff_ne]
            at hcnd
          have hpair := List.Pairwise.forall
            (fun {a b} h => ⟨h.2, h.1⟩) hpw hmem hr hcnd.2
          rw [hpair.1] at hcnd
          exact absurd hcnd.1 (by simp)
      rw [hinner] at hKids
      have hch : n.children.isEmpty = true := by
        have := Option.some.inj hKids
        simpa using this
      exact ⟨fun _ => List.isEmpty_iff.mp hch, fun _ => hfile⟩
    · rw [if_neg hmem] at hFile
      cases hany : R.any (fun r => pfxOf q r) with
      | false =>
        rw [hany] at hFile
        rw [if_neg (show ¬(false = true) by simp)] at hFile
        exact absurd hFile (by simp)
      | true =>
        rw [hany] at hFile hKids
        simp only [if_pos (show (true = true) from rfl)] at hFile hKids
        have hfile : n.isFile = false := Option.some.inj hFile
        have hinner : R.any (fun r => pfxOf q r && !(q == r)) = true := by
          obtain ⟨r, hr, hpfx⟩ := List.any_eq_true.mp hany
          refine List.any_eq_true.mpr ⟨r, hr, ?_⟩
          rw [Bool.and_eq_true]
          refine ⟨hpfx, ?_⟩
          rw [Bool.not_eq_true', beq_eq_false_iff_ne]
          exact fun he => hmem (he ▸ hr)
        rw [hinner] at hKids
        have hch : n.children ≠ [] := by
          intro h
          have := Option.some.inj hKids
          rw [h] at this
          simp at this
        constructor
        · intro h
          exact absurd (hfile ▸ h) (by simp)
        · intro h
          exact absurd h hch
  · rw [leafAll_fold R (TreeNode.mk "" false []) nodupTree_root0 hne hseq0
      (hpw.imp (fun h => h.2))]
    rw [leafAll_mk]
    simp [leafList]
  · rw [countAll_fold R (TreeNode.mk "" false []) nodupTree_root0 hne]
    rw [countAll_mk]
    have hfilter : (R.flatMap allPfx).filter
        (fun q => !hasSeq (TreeNode.mk "" false []) q) = R.flatMap allPfx := by
      apply List.filter_eq_self.mpr
      intro q hq
      obtain ⟨r, hr, hqr⟩ := List.mem_flatMap.mp hq
      rw [hasSeq_root0 q (allPfx_ne_nil q hqr)]
      rfl
    rw [hfilter]
    simp [countList]

/-! ## Counting distinct proper prefixes -/

theorem mem_properPfx {l q : List String} :
    q ∈ properPfx l ↔ q ≠ [] ∧ pfxOf q l = true ∧ q ≠ l := by
  unfold properPfx
  rw [List.mem_filter, mem_allPfx]
  simp [and_assoc]

theorem nodup_of_pairwise_not_pfx {R : List (List String)}
    (hpw : R.Pairwise (fun a b => pfxOf a b = false ∧ pfxOf b a = false)) :
    R.Nodup := by
  refine hpw.imp ?_
  intro a b h hab
  have hf := h.1
  rw [hab] at hf
  simp [pfxOf_refl] at hf

theorem flatMap_allPfx_eq_union (R : List (List String))
    (hne : ∀ r ∈ R, r ≠ []) :
    (R.flatMap allPfx).toFinset =
      (R.flatMap properPfx).toFinset ∪ R.toFinset := by
  ext q
  simp only [List.mem_toFinset, Finset.mem_union]
  constructor
  · intro hq
    obtain ⟨r, hr, hqr⟩ := List.mem_flatMap.mp hq
    by_cases heq : q = r
    · exact Or.inr (heq ▸ hr)
    · refine Or.inl (List.mem_flatMap.mpr ⟨r, hr, ?_⟩)
      rw [mem_properPfx]
      have := mem_allPfx.mp hqr
      exact ⟨this.1, this.2, heq⟩
  · rintro (hq | hq)
    · obtain ⟨r, hr, hqr⟩ := List.mem_flatMap.mp hq
      refine List.mem_flatMap.mpr ⟨r, hr, ?_⟩
      rw [mem_properPfx] at hqr
      exact mem_allPfx.mpr ⟨hqr.1, hqr.2.1⟩
    · exact List.mem_flatMap.mpr
        ⟨q, hq, mem_allPfx.mpr ⟨hne q hq, pfxOf_refl q⟩⟩

theorem disjoint_properPfx (R : List (List String))
    (hpw : R.Pairwise (fun a b => pfxOf a b = false ∧ pfxOf b a = false)) :
    Disjoint (R.flatMap properPfx).toFinset R.toFinset := by
  rw [Finset.disjoint_left]
  intro q hq hqR
  rw [List.mem_toFinset] at hq hqR
  obtain ⟨r, hr, hqr⟩ := List.mem_flatMap.mp hq
  rw [mem_properPfx] at hqr
  have hpair := List.Pairwise.forall
    (fun {a b} h => ⟨h.2, h.1⟩) hpw hqR hr hqr.2.2
  have := hqr.2.1
  rw [hpair.1] at this
  exact absurd this (by simp)

theorem card_allPfx_split (R : List (List String))
    (hne : ∀ r ∈ R, r ≠ [])
    (hpw : R.Pairwise (fun a b => pfxOf a b = false ∧ pfxOf b a = false)) :
    (R.flatMap allPfx).toFinset.card =
      (R.flatMap properPfx).toFinset.card + R.length := by
  rw [flatMap_allPfx_eq_union R hne]
  rw [Finset.card_union_of_disjoint (disjoint_properPfx R hpw)]
  have hR : R.toFinset.card = R.length := by
    rw [List.card_toFinset, (nodup_of_pairwise_not_pfx hpw).dedup]
  rw [hR]

/-! ## Top-level line of each root child -/

theorem topLine_file {nc : String} {fc : Bool} {csc : List TreeNode}
    (hfc : fc = true) (hcs : csc = []) :
    ((TreeNode.mk nc fc csc).name ++
      (if (TreeNode.mk nc fc csc).children.length > 0 &&
          !(TreeNode.mk nc fc csc).isFile then "/" else "")) = nc := by
  subst hfc
  subst hcs
  simp [TreeNode.name, TreeNode.children, TreeNode.isFile]

theorem topLine_dir {nc : String} {fc : Bool} {csc : List TreeNode}
    (hfc : fc = false) (hne : csc ≠ []) :
    ((TreeNode.mk nc fc csc).name ++
      (if (TreeNode.mk nc fc csc).children.length > 0 &&
          !(TreeNode.mk nc fc csc).isFile then "/" else "")) = nc ++ "/" := by
  subst hfc
  simp [TreeNode.name, TreeNode.children, TreeNode.isFile,
    List.length_pos, hne]

theorem topSingle_counts (r : TreeNode) (hf : flagsOk r) (hn : namesOk r)
    (hdr : r.isFile = false) :
    ((((r.name ++ "/") :: renderLines r "").filter endsWithSlash).length =
      dirList [r]) ∧
    ((((r.name ++ "/") :: renderLines r "").filter
        (fun s => !endsWithSlash s)).length = leafList [r]) := by
  cases r with
  | mk nr fr csr =>
    simp only [TreeNode.isFile] at hdr
    subst hdr
    rw [flagsOk_mk] at hf
    rw [namesOk_mk] at hn
    have hfl : ∀ d ∈ sortNodes csr, flagsOk d :=
      fun d hd => flagsList_mem hf.2 (mem_sortNodes.mp hd)
    have hnl : ∀ d ∈ sortNodes csr, namesOk d :=
      fun d hd => namesList_mem hn.2 (mem_sortNodes.mp hd)
    obtain ⟨hpos, hneg⟩ := renderGo_filter (sizeOf (sortNodes csr))
      (sortNodes csr) le_rfl hfl hnl ""
    have hdlen := dirGo_length (sizeOf (sortNodes csr)) (sortNodes csr)
      le_rfl hfl ""
    have hllen := leafGo_length (sizeOf (sortNodes csr)) (sortNodes csr)
      le_rfl hfl ""
    have hrl : renderLines (TreeNode.mk nr false csr) "" =
        renderGo "" (sortNodes csr) := by simp [renderLines]
    have hline : endsWithSlash ((TreeNode.mk nr false csr).name ++ "/") =
        true := endsWithSlash_append_slash _
    constructor
    · rw [hrl]
      simp only [List.filter_cons]
      rw [hline, if_pos rfl, List.length_cons, hpos, hdlen,
        dirList_sortNodes]
      simp [dirList, dirAll_mk]
      omega
    · rw [hrl]
      simp only [List.filter_cons]
      rw [hline]
      rw [if_neg (by simp)]
      rw [hneg, hllen, leafList_sortNodes]
      simp [leafList, leafAll_mk]

theorem topFold_counts (rs : List TreeNode)
    (hflags : ∀ c ∈ rs, flagsOk c) (hnames : ∀ c ∈ rs, namesOk c) :
    (((rs.foldr (fun r acc =>
        (r.name ++ (if r.children.length > 0 && !r.isFile then "/" else ""))
          :: renderLines r "" ++ acc) []).filter endsWithSlash).length =
      dirList rs) ∧
    (((rs.foldr (fun r acc =>
        (r.name ++ (if r.children.length > 0 && !r.isFile then "/" else ""))
          :: renderLines r "" ++ acc) []).filter
        (fun s => !endsWithSlash s)).length = leafList rs) := by
  induction rs with
  | nil => constructor <;> simp [dirList, leafList]
  | cons c rest ih =>
    obtain ⟨ihd, ihl⟩ := ih
      (fun d hd => hflags d (List.mem_cons_of_mem _ hd))
      (fun d hd => hnames d (List.mem_cons_of_mem _ hd))
    have hf := hflags c (List.mem_cons_self _ _)
    have hn := hnames c (List.mem_cons_self _ _)
    cases c with
    | mk nc fc csc =>
      rw [flagsOk_mk] at hf
      rw [namesOk_mk] at hn
      rw [List.foldr_cons]
      by_cases hfc : fc = true
      · subst hfc
        have hcs : csc = [] := hf.1.mp rfl
        subst hcs
        rw [topLine_file rfl rfl]
        have hrl : renderLines (TreeNode.mk nc true []) "" = [] := by
          simp [renderLines, sortNodes, renderGo]
        rw [hrl, List.singleton_append]
        have hline : endsWithSlash nc = false :=
          endsWithSlash_of_no_slash_end nc hn.1
        constructor
        · simp only [List.filter_cons]
          rw [hline]
          rw [if_neg (by simp)]
          rw [ihd]
          simp [dirList, dirAll_mk]
        · simp only [List.filter_cons]
          rw [hline]
          rw [if_pos (by simp : (!false) = true), List.length_cons, ihl]
          simp [leafList, leafAll_mk]
          omega
      · have hfc' : fc = false := by revert hfc; cases fc <;> simp
        subst hfc'
        have hne : csc ≠ [] := fun h => by
          exact absurd (hf.1.mpr h) (by simp)
        rw [topLine_dir rfl hne]
        have hfl : ∀ d ∈ sortNodes csc, flagsOk d :=
          fun d hd => flagsList_mem hf.2 (mem_sortNodes.mp hd)
        have hnl : ∀ d ∈ sortNodes csc, namesOk d :=
          fun d hd => namesList_mem hn.2 (mem_sortNodes.mp hd)
        obtain ⟨hpos, hneg⟩ := renderGo_filter (sizeOf (sortNodes csc))
          (sortNodes csc) le_rfl hfl hnl ""
        have hdlen := dirGo_length (sizeOf (sortNodes csc)) (sortNodes csc)
          le_rfl hfl ""
        have hllen := leafGo_length (sizeOf (sortNodes csc)) (sortNodes csc)
          le_rfl hfl ""
        have hrl : renderLines (TreeNode.mk nc false csc) "" =
            renderGo "" (sortNodes csc) := by simp [renderLines]
        have hline : endsWithSlash (nc ++ "/") = true :=
          endsWithSlash_append_slash nc
        constructor
        · rw [hrl, List.filter_append, List.length_append]
          simp only [List.filter_cons]
          rw [hline, if_pos rfl, List.length_cons, hpos, hdlen,
            dirList_sortNodes, ihd]
          simp [dirList, dirAll_mk]
          omega
        · rw [hrl, List.filter_append, List.length_append]
          simp only [List.filter_cons]
          rw [hline]
          rw [if_neg (by simp)]
          rw [hneg, hllen, leafList_sortNodes, ihl]
          simp [leafList, leafAll_mk]

/-! ## The root node's own fields survive the fold -/

theorem foldl_insertParts_isFile (R : List (List String)) :
    ∀ t : TreeNode, (R.foldl insertParts t).isFile = t.isFile := by
  induction R with
  | nil => intro t; rfl
  | cons r R' ih => intro t; rw [List.foldl_cons, ih, insertParts_isFile]

/-- Inserting only paths of two or more segments keeps every root child a
directory node. -/
theorem rootChildren_not_file : ∀ (R : List (List String)) (t : TreeNode),
    (∀ r ∈ R, 2 ≤ r.length) →
    (∀ c ∈ t.children, c.isFile = false) →
    ∀ c ∈ (R.foldl insertParts t).children, c.isFile = false := by
  intro R
  induction R with
  | nil => intro t _ h; exact h
  | cons r R' ih =>
    intro t hlen h
    rw [List.foldl_cons]
    apply ih _ (fun b hb => hlen b (List.mem_cons_of_mem r hb))
    intro c hc
    have hl := hlen r (List.mem_cons_self r R')
    cases r with
    | nil => simp at hl
    | cons x rest =>
      cases t with
      | mk n f cs =>
        simp only [insertParts] at hc
        cases hfc : findChild cs x with
        | some d =>
          simp only [hfc] at hc
          simp only [TreeNode.children] at hc
          unfold replaceChild at hc
          obtain ⟨e, he, hceq⟩ := List.mem_map.mp hc
          by_cases hn2 : (e.name == x) = true
          · rw [if_pos hn2] at hceq
            rw [← hceq, insertParts_isFile]
            exact h d (findChild_mem hfc).1
          · rw [if_neg hn2] at hceq
            rw [← hceq]
            exact h e he
        | none =>
          simp only [hfc] at hc
          simp only [TreeNode.children] at hc
          rcases List.mem_append.mp hc with hmem | hmem
          · exact h c hmem
          · rw [List.mem_singleton] at hmem
            subst hmem
            rw [insertParts_isFile]
            simp only [TreeNode.isFile]
            cases rest with
            | nil => simp at hl
            | cons y ys => rfl

/-! ## Reducing `treeLines` once the sorted root children are known -/

theorem treeLines_nil (fs : FS) (fileSet : List String)
    (h : sortNodes (buildTrie (relativePathsOf fs fileSet)).children = []) :
    treeLines fs fileSet = [] := by
  unfold treeLines
  simp only [h]
  rfl

theorem treeLines_single (fs : FS) (fileSet : List String) (r : TreeNode)
    (h : sortNodes (buildTrie (relativePathsOf fs fileSet)).children =
      [r]) :
    treeLines fs fileSet = (r.name ++ "/") :: renderLines r "" := by
  unfold treeLines
  simp only [h]

theorem treeLines_multi (fs : FS) (fileSet : List String)
    (r1 r2 : TreeNode) (rest : List TreeNode)
    (h : sortNodes (buildTrie (relativePathsOf fs fileSet)).children =
      r1 :: r2 :: rest) :
    treeLines fs fileSet = (r1 :: r2 :: rest).foldr (fun r acc =>
      (r.name ++ (if r.children.length > 0 && !r.isFile then "/" else ""))
        :: renderLines r "" ++ acc) [] := by
  unfold treeLines
  simp only [h]

/-- **C5.** With a resolvable workspace root and a selection whose
relative paths are pairwise distinct and pairwise not segment-ancestors
of one another, the rendered tree has exactly one leaf line (no `'/'`
suffix) per file of the file set, and exactly as many directory lines
(`'/'`-suffixed) as there are distinct non-empty proper segment prefixes
across the relative paths. -/
theorem c5_tree_line_counts (fs : FS) (fileSet : List String) (w : String)
    (hw : fs.workspaceRoot = some w)
    (hnd : (fileSet.map (fileRelativePath fs)).Nodup)
    (hpw : PairwiseNotPfx
      ((fileSet.map (fileRelativePath fs)).map jsSplitSlash)) :
    ((treeLines fs fileSet).filter (fun s => !endsWithSlash s)).length =
      fileSet.length ∧
    ((treeLines fs fileSet).filter endsWithSlash).length =
      ((((fileSet.map (fileRelativePath fs)).map jsSplitSlash).flatMap
        properPfx).toFinset).card := by
  set rels := fileSet.map (fileRelativePath fs) with hrels
  set R := rels.map jsSplitSlash with hRdef
  have hpw' : R.Pairwise (fun a b => pfxOf a b = false ∧ pfxOf b a = false) :=
    hpw
  have hlen2 : ∀ r ∈ R, 2 ≤ r.length := by
    intro r hr
    rw [hRdef] at hr
    obtain ⟨p, hp, hpr⟩ := List.mem_map.mp hr
    rw [hrels] at hp
    obtain ⟨x, hx, hxp⟩ := List.mem_map.mp hp
    subst hpr
    subst hxp
    have hrel : fileRelativePath fs x =
        basename w ++ "/" ++ nodeRelative w x := by
      unfold fileRelativePath
      rw [hw]
    rw [hrel]
    exact jsSplitSlash_length_ge_two _ _
  have hne : ∀ r ∈ R, r ≠ [] := by
    intro r hr h
    have h2 := hlen2 r hr
    rw [h] at h2
    simp at h2
  obtain ⟨hndT, hflagsT, hleafT, hcountT⟩ := buildTrie_structure R hne hpw'
  have hnames0 : namesOk (R.foldl insertParts (TreeNode.mk "" false [])) := by
    apply namesOk_fold
    · intro r hr s hs
      rw [hRdef] at hr
      obtain ⟨p, hp, hpr⟩ := List.mem_map.mp hr
      subst hpr
      exact jsSplitSlash_last_ne_slash hs
    · rw [namesOk_mk]
      exact ⟨by decide, namesList_nil⟩
  have hdirT := rootChildren_not_file R (TreeNode.mk "" false []) hlen2
    (by intro c hc; simp [TreeNode.children] at hc)
  have hRP : relativePathsOf fs fileSet = rels :=
    relativePathsOf_eq_map fs fileSet hnd
  have hTrie : buildTrie (relativePathsOf fs fileSet) =
      R.foldl insertParts (TreeNode.mk "" false []) := by
    rw [hRP, buildTrie_eq_fold, ← hRdef]
  have hRlen : R.length = fileSet.length := by simp [hRdef, hrels]
  have hsplit := card_allPfx_split R hne hpw'
  cases hTm : R.foldl insertParts (TreeNode.mk "" false []) with
  | mk n f cs =>
    rw [hTm] at hflagsT hleafT hcountT hnames0 hdirT hTrie
    have hf : f = false := by
      have hff := foldl_insertParts_isFile R (TreeNode.mk "" false [])
      rw [hTm] at hff
      simpa [TreeNode.isFile] using hff
    subst hf
    simp only [TreeNode.children] at hflagsT hdirT
    rw [namesOk_mk] at hnames0
    rw [leafAll_mk] at hleafT
    simp only [if_neg (show ¬(false = true) by simp), Nat.zero_add]
      at hleafT
    rw [countAll_mk] at hcountT
    have hsort : sortNodes (buildTrie (relativePathsOf fs fileSet)).children
        = sortNodes cs := by
      rw [hTrie]
      rfl
    have hdirleaf := dirList_add_leafList (sizeOf cs) cs le_rfl
    cases hs : sortNodes cs with
    | nil =>
      rw [treeLines_nil fs fileSet (by rw [hsort, hs])]
      have hcs : cs = [] := by
        have hp := sortNodes_perm cs
        rw [hs] at hp
        exact hp.symm.eq_nil
      subst hcs
      simp only [leafList] at hleafT
      simp only [countList] at hcountT
      constructor
      · simp only [List.filter_nil, List.length_nil]
        omega
      · simp only [List.filter_nil, List.length_nil]
        omega
    | cons r rest0 =>
      cases rest0 with
      | nil =>
        rw [treeLines_single fs fileSet r (by rw [hsort, hs])]
        have hrmem : r ∈ cs := mem_sortNodes.mp
          (by rw [hs]; exact List.mem_cons_self r [])
        have hfr : flagsOk r := flagsList_mem hflagsT hrmem
        have hnr : namesOk r := namesList_mem hnames0.2 hrmem
        have hdr : r.isFile = false := hdirT r hrmem
        obtain ⟨hd1, hl1⟩ := topSingle_counts r hfr hnr hdr
        have hdl : dirList [r] = dirList cs := by
          rw [← hs, dirList_sortNodes]
        have hll : leafList [r] = leafList cs := by
          rw [← hs, leafList_sortNodes]
        constructor
        · rw [hl1, hll]
          omega
        · rw [hd1, hdl]
          omega
      | cons r2 rest2 =>
        rw [treeLines_multi fs fileSet r r2 rest2 (by rw [hsort, hs])]
        have hmem : ∀ c ∈ r :: r2 :: rest2, c ∈ cs := fun c hc =>
          mem_sortNodes.mp (by rw [hs]; exact hc)
        obtain ⟨hd1, hl1⟩ := topFold_counts (r :: r2 :: rest2)
          (fun c hc => flagsList_mem hflagsT (hmem c hc))
          (fun c hc => namesList_mem hnames0.2 (hmem c hc))
        have hdl : dirList (r :: r2 :: rest2) = dirList cs := by
          rw [← hs, dirList_sortNodes]
        have hll : leafList (r :: r2 :: rest2) = leafList cs := by
          rw [← hs, leafList_sortNodes]
        constructor
        · rw [hl1, hll]
          omega
        · rw [hd1, hdl]
          omega

/-- **C5 witness.** Selecting `/w/a.txt` and `/w/d/x.txt` under root
`/w`: two leaf lines (`a.txt`, `x.txt`) and two directory lines (`w/`,
`d/`), matching the two distinct proper prefixes `[w]` and `[w, d]`. -/
theorem c5_tree_line_counts_witness :
    fsA.workspaceRoot = some "/w" ∧
    (["/w/a.txt", "/w/d/x.txt"].map (fileRelativePath fsA)).Nodup ∧
    PairwiseNotPfx ((["/w/a.txt", "/w/d/x.txt"].map
      (fileRelativePath fsA)).map jsSplitSlash) ∧
    (((treeLines fsA ["/w/a.txt", "/w/d/x.txt"]).filter
        (fun s => !endsWithSlash s)).length = 2 ∧
      ((treeLines fsA ["/w/a.txt", "/w/d/x.txt"]).filter
        endsWithSlash).length =
        ((((["/w/a.txt", "/w/d/x.txt"].map (fileRelativePath fsA)).map
          jsSplitSlash).flatMap properPfx).toFinset).card) :=
  ⟨rfl, by decide, by unfold PairwiseNotPfx; decide,
    c5_tree_line_counts fsA ["/w/a.txt", "/w/d/x.txt"] "/w" rfl
      (by decide) (by unfold PairwiseNotPfx; decide)⟩

/-- **C6 counterexample.** Without a workspace root, selecting the single
file `/x/a.txt` makes the trie's unique root child a childless *file*
node, yet the top line is rendered with the `"/"` suffix: the rendered
tree is `"a.txt/\n"`.  This contradicts the claim that a unique root
child is suffixed `'/'` only if it has children. -/
theorem c6_counterexample :
    (sortNodes (buildTrie (relativePathsOf fsNoRoot ["/x/a.txt"])).children
      = [TreeNode.mk "a.txt" true []]) ∧
    (TreeNode.mk "a.txt" true []).children = [] ∧
    (TreeNode.mk "a.txt" true []).isFile = true ∧
    treeLines fsNoRoot ["/x/a.txt"] = ["a.txt/"] ∧
    buildTreeFromRoot fsNoRoot ["/x/a.txt"] = "a.txt/\n" := by
  have h1 : sortNodes (buildTrie (relativePathsOf fsNoRoot
      ["/x/a.txt"])).children = [TreeNode.mk "a.txt" true []] := rfl
  have h2 : treeLines fsNoRoot ["/x/a.txt"] = ["a.txt/"] := by
    rw [treeLines_single fsNoRoot ["/x/a.txt"] _ h1]
    have hrl : renderLines (TreeNode.mk "a.txt" true []) "" = [] := by
      simp [renderLines, sortNodes, renderGo]
    rw [hrl]
    rfl
  refine ⟨h1, rfl, rfl, h2, ?_⟩
  unfold buildTreeFromRoot
  rw [h2]
  rfl

/-- **C6 (amended).** (1) Within the recursive rendering, under the tree
invariants the `'/'`-suffixed lines are exactly the directory-branch
lines and the remaining lines exactly the leaf-branch lines — directory
names always get the suffix, file names never do.  (2) A unique root
child is rendered as a top line suffixed `'/'` *unconditionally*,
children or not.  (3) A later insertion never changes the `isFile` flag
of an already existing node: a directory node stays a directory even if
another path ends exactly at it. -/
theorem c6_amended :
    (∀ (t : TreeNode) (pre : String), flagsOk t → namesOk t →
      (renderLines t pre).filter endsWithSlash = dirLines t pre ∧
      (renderLines t pre).filter (fun s => !endsWithSlash s) =
        leafLines t pre) ∧
    (∀ (fs : FS) (fileSet : List String) (r : TreeNode),
      sortNodes (buildTrie (relativePathsOf fs fileSet)).children = [r] →
      treeLines fs fileSet = (r.name ++ "/") :: renderLines r "" ∧
      endsWithSlash (r.name ++ "/") = true) ∧
    (∀ (t : TreeNode) (q : List String) (m : TreeNode) (p : List String),
      hasSeq t q = true → getNode t q = some m →
      (getNode (insertParts t p) q).map TreeNode.isFile =
        some m.isFile) := by
  refine ⟨?_, ?_, ?_⟩
  · intro t pre hf hn
    cases t with
    | mk nt ft cst =>
      rw [flagsOk_mk] at hf
      rw [namesOk_mk] at hn
      have hfl : ∀ d ∈ sortNodes cst, flagsOk d :=
        fun d hd => flagsList_mem hf.2 (mem_sortNodes.mp hd)
      have hnl : ∀ d ∈ sortNodes cst, namesOk d :=
        fun d hd => namesList_mem hn.2 (mem_sortNodes.mp hd)
      have h := renderGo_filter (sizeOf (sortNodes cst)) (sortNodes cst)
        le_rfl hfl hnl pre
      constructor
      · rw [show renderLines (TreeNode.mk nt ft cst) pre =
            renderGo pre (sortNodes cst) from by simp [renderLines]]
        rw [show dirLines (TreeNode.mk nt ft cst) pre =
            dirGo pre (sortNodes cst) from by simp [dirLines]]
        exact h.1
      · rw [show renderLines (TreeNode.mk nt ft cst) pre =
            renderGo pre (sortNodes cst) from by simp [renderLines]]
        rw [show leafLines (TreeNode.mk nt ft cst) pre =
            leafGo pre (sortNodes cst) from by simp [leafLines]]
        exact h.2
  · intro fs fileSet r h
    exact ⟨treeLines_single fs fileSet r h,
      endsWithSlash_append_slash r.name⟩
  · intro t q m p hseq hget
    rw [getNode_insert_found p t q hseq]
    by_cases hp : pfxOf q p = true
    · rw [if_pos hp, hget, Option.map_some', Option.map_some',
        insertParts_isFile]
    · rw [if_neg (by simp [hp]), hget, Option.map_some']

/-- **C6 witness.** The subtree `d/x.txt`: its slash-classification is as
stated; the `a.txt`-alone tree instantiates the unconditional top-line
slash; and inserting `x.txt/y` through the existing file node keeps that
node's flag. -/
theorem c6_amended_witness :
    (flagsOk (TreeNode.mk "d" false [TreeNode.mk "x.txt" true []]) ∧
     namesOk (TreeNode.mk "d" false [TreeNode.mk "x.txt" true []]) ∧
     ((renderLines (TreeNode.mk "d" false [TreeNode.mk "x.txt" true []])
        "").filter endsWithSlash =
       dirLines (TreeNode.mk "d" false [TreeNode.mk "x.txt" true []]) "" ∧
      (renderLines (TreeNode.mk "d" false [TreeNode.mk "x.txt" true []])
        "").filter (fun s => !endsWithSlash s) =
       leafLines (TreeNode.mk "d" false [TreeNode.mk "x.txt" true []])
        "")) ∧
    (sortNodes (buildTrie (relativePathsOf fsNoRoot
        ["/x/a.txt"])).children = [TreeNode.mk "a.txt" true []] ∧
     treeLines fsNoRoot ["/x/a.txt"] =
       ((TreeNode.mk "a.txt" true []).name ++ "/") ::
         renderLines (TreeNode.mk "a.txt" true []) "" ∧
     endsWithSlash ((TreeNode.mk "a.txt" true []).name ++ "/") = true) ∧
    (hasSeq (TreeNode.mk "d" false [TreeNode.mk "x.txt" true []])
        ["x.txt"] = true ∧
     getNode (TreeNode.mk "d" false [TreeNode.mk "x.txt" true []])
        ["x.txt"] = some (TreeNode.mk "x.txt" true []) ∧
     (getNode (insertParts
        (TreeNode.mk "d" false [TreeNode.mk "x.txt" true []])
        ["x.txt", "y"]) ["x.txt"]).map TreeNode.isFile = some true) := by
  have hf : flagsOk (TreeNode.mk "d" false [TreeNode.mk "x.txt" true []]) :=
    by
    rw [flagsOk_mk]
    refine ⟨by simp, ?_⟩
    rw [flagsList_iff]
    refine ⟨?_, flagsList_nil⟩
    rw [flagsOk_mk]
    exact ⟨by simp, flagsList_nil⟩
  have hn : namesOk (TreeNode.mk "d" false [TreeNode.mk "x.txt" true []]) :=
    by
    rw [namesOk_mk]
    refine ⟨by decide, ?_⟩
    rw [namesList_iff]
    refine ⟨?_, namesList_nil⟩
    rw [namesOk_mk]
    exact ⟨by decide, namesList_nil⟩
  have h1 : sortNodes (buildTrie (relativePathsOf fsNoRoot
      ["/x/a.txt"])).children = [TreeNode.mk "a.txt" true []] := rfl
  refine ⟨⟨hf, hn, c6_amended.1 _ "" hf hn⟩,
    ⟨h1, c6_amended.2.1 fsNoRoot ["/x/a.txt"] _ h1⟩, rfl, rfl, ?_⟩
  exact c6_amended.2.2 (TreeNode.mk "d" false [TreeNode.mk "x.txt" true []])
    ["x.txt"] (TreeNode.mk "x.txt" true []) ["x.txt", "y"] rfl rfl

/-! ## The comparator: totality, antisymmetry, transitivity -/

theorem charListLe_total : ∀ a b : List Char,
    charListLe a b = true ∨ charListLe b a = true := by
  intro a
  induction a with
  | nil => intro b; exact Or.inl rfl
  | cons c as ih =>
    intro b
    cases b with
    | nil => exact Or.inr rfl
    | cons d bs =>
      by_cases hcd : c = d
      · subst hcd
        rw [charListLe, charListLe, if_pos rfl, if_pos rfl]
        exact ih bs
      · rw [charListLe, charListLe, if_neg hcd, if_neg (Ne.symm hcd)]
        rcases lt_trichotomy c d with h | h | h
        · exact Or.inl (by simpa using h)
        · exact absurd h hcd
        · exact Or.inr (by simpa using h)

theorem charListLe_antisymm : ∀ a b : List Char,
    charListLe a b = true → charListLe b a = true → a = b := by
  intro a
  induction a with
  | nil =>
    intro b hab hba
    cases b with
    | nil => rfl
    | cons d bs => simp [charListLe] at hba
  | cons c as ih =>
    intro b hab hba
    cases b with
    | nil => simp [charListLe] at hab
    | cons d bs =>
      by_cases hcd : c = d
      · subst hcd
        rw [charListLe, if_pos rfl] at hab hba
        rw [ih bs hab hba]
      · rw [charListLe, if_neg hcd] at hab
        rw [charListLe, if_neg (Ne.symm hcd)] at hba
        simp only [decide_eq_true_eq] at hab hba
        exact absurd (lt_trans hab hba) (lt_irrefl c)

theorem charListLe_trans : ∀ a b c : List Char,
    charListLe a b = true → charListLe b c = true →
    charListLe a c = true := by
  intro a
  induction a with
  | nil => intro b c _ _; rfl
  | cons x as ih =>
    intro b c hab hbc
    cases b with
    | nil => simp [charListLe] at hab
    | cons y bs =>
      cases c with
      | nil => simp [charListLe] at hbc
      | cons z cs =>
        by_cases hxy : x = y <;> by_cases hyz : y = z
        · subst hxy; subst hyz
          rw [charListLe, if_pos rfl] at hab hbc ⊢
          exact ih bs cs hab hbc
        · subst hxy
          rw [charListLe, if_pos rfl] at hab
          rw [charListLe, if_neg hyz] at hbc ⊢
          exact hbc
        · subst hyz
          rw [charListLe, if_neg hxy] at hab ⊢
          exact hab
        · rw [charListLe, if_neg hxy] at hab
          rw [charListLe, if_neg hyz] at hbc
          simp only [decide_eq_true_eq] at hab hbc
          have hxz : x < z := lt_trans hab hbc
          rw [charListLe, if_neg (ne_of_lt hxz)]
          simpa using hxz

theorem nameLe_of_not_nameLe {a b : TreeNode}
    (h : nameLe a b = false) : nameLe b a = true := by
  rcases charListLe_total a.name.data b.name.data with h1 | h1
  · rw [nameLe] at h; rw [h] at h1; cases h1
  · exact h1

theorem nameLe_antisymm_names {a b : TreeNode}
    (hab : nameLe a b = true) (hba : nameLe b a = true) :
    a.name = b.name := by
  have := charListLe_antisymm a.name.data b.name.data hab hba
  exact String.ext this

theorem nameLe_trans {a b c : TreeNode} (hab : nameLe a b = true)
    (hbc : nameLe b c = true) : nameLe a c = true :=
  charListLe_trans a.name.data b.name.data c.name.data hab hbc

/-! ## Insertion sort under distinct names -/

theorem mem_name_unique {l : List TreeNode}
    (hnd : (childNames l).Nodup) {a b : TreeNode} (ha : a ∈ l) (hb : b ∈ l)
    (hname : a.name = b.name) : a = b := by
  induction l with
  | nil => cases ha
  | cons c rest ih =>
    rw [childNames, List.map_cons, List.nodup_cons] at hnd
    rcases List.mem_cons.mp ha with rfl | ha' <;>
      rcases List.mem_cons.mp hb with rfl | hb'
    · rfl
    · exact absurd (hname ▸ List.mem_map_of_mem TreeNode.name hb') hnd.1
    · exact absurd (hname.symm ▸ List.mem_map_of_mem TreeNode.name ha')
        hnd.1
    · exact ih hnd.2 ha' hb'

theorem insertSorted_cons (x y : TreeNode) (ys : List TreeNode) :
    insertSorted x (y :: ys) =
      if nameLe x y then x :: y :: ys else y :: insertSorted x ys := rfl

theorem insertSorted_comm_ordered {X Y : TreeNode}
    (h1 : nameLe X Y = true) (h2 : nameLe Y X = false) :
    ∀ L : List TreeNode,
      insertSorted X (insertSorted Y L) =
        insertSorted Y (insertSorted X L) := by
  intro L
  induction L with
  | nil =>
    rw [show insertSorted Y [] = [Y] from rfl,
      show insertSorted X [] = [X] from rfl,
      insertSorted_cons, insertSorted_cons, if_pos h1,
      if_neg (by simp [h2])]
    rfl
  | cons z L' ih =>
    rw [insertSorted_cons Y z L']
    cases hyz : nameLe Y z with
    | true =>
      rw [if_pos rfl]
      have hxz : nameLe X z = true := nameLe_trans h1 hyz
      rw [insertSorted_cons X Y (z :: L'), if_pos h1,
        insertSorted_cons X z L', if_pos hxz,
        insertSorted_cons Y X (z :: L'), if_neg (by simp [h2]),
        insertSorted_cons Y z L', if_pos hyz]
    | false =>
      rw [if_neg (by simp)]
      cases hxz : nameLe X z with
      | true =>
        rw [insertSorted_cons X z (insertSorted Y L'), if_pos hxz,
          insertSorted_cons X z L', if_pos hxz,
          insertSorted_cons Y X (z :: L'), if_neg (by simp [h2]),
          insertSorted_cons Y z L', if_neg (by simp [hyz])]
      | false =>
        rw [insertSorted_cons X z (insertSorted Y L'),
          if_neg (by simp [hxz]), ih,
          insertSorted_cons X z L', if_neg (by simp [hxz]),
          insertSorted_cons Y z (insertSorted X L'),
          if_neg (by simp [hyz])]

theorem insertSorted_comm {X Y : TreeNode} (hxy : X.name ≠ Y.name)
    (L : List TreeNode) :
    insertSorted X (insertSorted Y L) = insertSorted Y (insertSorted X L)
    := by
  cases h1 : nameLe X Y with
  | true =>
    cases h2 : nameLe Y X with
    | true => exact absurd (nameLe_antisymm_names h1 h2) hxy
    | false => exact insertSorted_comm_ordered h1 h2 L
  | false =>
    exact (insertSorted_comm_ordered (nameLe_of_not_nameLe h1) h1 L).symm

theorem sortNodes_append_single {Z : TreeNode} :
    ∀ A : List TreeNode, (∀ a ∈ A, a.name ≠ Z.name) →
      sortNodes (A ++ [Z]) = insertSorted Z (sortNodes A) := by
  intro A
  induction A with
  | nil => intro _; rfl
  | cons a A' ih =>
    intro h
    rw [List.cons_append, sortNodes, sortNodes,
      ih (fun b hb => h b (List.mem_cons_of_mem a hb)),
      insertSorted_comm (h a (List.mem_cons_self a A'))]

theorem sortNodes_swap_pair {X Y : TreeNode} (hxy : X.name ≠ Y.name) :
    ∀ C : List TreeNode,
      sortNodes (C ++ [X, Y]) = sortNodes (C ++ [Y, X]) := by
  intro C
  induction C with
  | nil =>
    show insertSorted X (insertSorted Y (sortNodes [])) =
      insertSorted Y (insertSorted X (sortNodes []))
    exact insertSorted_comm hxy (sortNodes [])
  | cons c C' ih =>
    rw [List.cons_append, sortNodes, ih, ← sortNodes]
    rfl

/-! ## The canonical form: name-preserving, commutes with the sort -/

theorem canon_mk (n : String) (f : Bool) (cs : List TreeNode) :
    canon (TreeNode.mk n f cs) =
      TreeNode.mk n f (sortNodes (canonList cs)) := by
  simp [canon]

theorem canonList_cons (c : TreeNode) (l : List TreeNode) :
    canonList (c :: l) = canon c :: canonList l := by
  simp [canonList]

theorem canonList_nil : canonList [] = [] := by simp [canonList]

theorem canon_name (t : TreeNode) : (canon t).name = t.name := by
  cases t with
  | mk n f cs => rw [canon_mk, TreeNode.name, TreeNode.name]

theorem canon_isFile (t : TreeNode) : (canon t).isFile = t.isFile := by
  cases t with
  | mk n f cs => rw [canon_mk, TreeNode.isFile, TreeNode.isFile]

theorem canonList_eq_map : ∀ l : List TreeNode, canonList l = l.map canon
  | [] => by simp [canonList]
  | c :: rest => by rw [canonList_cons, List.map_cons, canonList_eq_map]

theorem canonList_append (a b : List TreeNode) :
    canonList (a ++ b) = canonList a ++ canonList b := by
  rw [canonList_eq_map, canonList_eq_map, canonList_eq_map,
    List.map_append]

theorem canonList_length (l : List TreeNode) :
    (canonList l).length = l.length := by
  rw [canonList_eq_map, List.length_map]

theorem childNames_canonList (l : List TreeNode) :
    childNames (canonList l) = childNames l := by
  rw [canonList_eq_map]
  unfold childNames
  rw [List.map_map]
  exact List.map_congr_left (fun a _ => canon_name a)

theorem replName {x : String} {W : TreeNode} (hW : W.name = x)
    (e : TreeNode) : (if e.name == x then W else e).name = e.name := by
  by_cases h : (e.name == x) = true
  · rw [if_pos h, hW]
    exact (beq_iff_eq.mp h).symm
  · rw [if_neg h]

theorem nameLe_congr {a b a' b' : TreeNode} (ha : a'.name = a.name)
    (hb : b'.name = b.name) : nameLe a' b' = nameLe a b := by
  unfold nameLe
  rw [ha, hb]

theorem replaceChild_insertSorted {x : String} {W : TreeNode}
    (hW : W.name = x) (a : TreeNode) :
    ∀ M : List TreeNode,
      replaceChild (insertSorted a M) x W =
        insertSorted (if a.name == x then W else a) (replaceChild M x W)
    := by
  intro M
  induction M with
  | nil => rfl
  | cons m M' ih =>
    have hcmp : nameLe (if (a.name == x) then W else a)
        (if (m.name == x) then W else m) = nameLe a m :=
      nameLe_congr (replName hW a) (replName hW m)
    by_cases h : nameLe a m = true
    · rw [insertSorted_cons, if_pos h, replaceChild_cons, replaceChild_cons,
        insertSorted_cons, hcmp, if_pos h]
    · rw [insertSorted_cons, if_neg h, replaceChild_cons, ih,
        replaceChild_cons m M' x W, insertSorted_cons, hcmp, if_neg h]

theorem sortNodes_replaceChild {x : String} {W : TreeNode}
    (hW : W.name = x) :
    ∀ L : List TreeNode,
      sortNodes (replaceChild L x W) = replaceChild (sortNodes L) x W := by
  intro L
  induction L with
  | nil => rfl
  | cons l L' ih =>
    rw [replaceChild_cons, sortNodes, sortNodes, ih,
      replaceChild_insertSorted hW]

theorem canonList_replaceChild {x : String} {A : TreeNode} :
    ∀ cs : List TreeNode,
      canonList (replaceChild cs x A) =
        replaceChild (canonList cs) x (canon A) := by
  intro cs
  rw [canonList_eq_map, canonList_eq_map]
  unfold replaceChild
  rw [List.map_map, List.map_map]
  apply List.map_congr_left
  intro e _
  simp only [Function.comp]
  by_cases h : (e.name == x) = true
  · have h' : ((canon e).name == x) = true := by rw [canon_name]; exact h
    rw [if_pos h, if_pos h']
  · have h' : ((canon e).name == x) = false := by
      rw [canon_name]
      cases h2 : (e.name == x) with
      | true => exact absurd h2 h
      | false => rfl
    rw [if_neg h, if_neg (by rw [h']; simp)]

theorem canonList_insertSorted (a : TreeNode) :
    ∀ l : List TreeNode,
      canonList (insertSorted a l) =
        insertSorted (canon a) (canonList l) := by
  intro l
  induction l with
  | nil =>
    rw [show insertSorted a [] = [a] from rfl, canonList_cons, canonList_nil]
    rfl
  | cons m l' ih =>
    have hcmp : nameLe (canon a) (canon m) = nameLe a m :=
      nameLe_congr (canon_name a) (canon_name m)
    by_cases h : nameLe a m = true
    · rw [insertSorted_cons, if_pos h, canonList_cons, canonList_cons,
        insertSorted_cons, hcmp, if_pos h]
    · rw [insertSorted_cons, if_neg h, canonList_cons, ih,
        canonList_cons m l', insertSorted_cons, hcmp, if_neg h]

theorem canonList_sortNodes : ∀ l : List TreeNode,
    canonList (sortNodes l) = sortNodes (canonList l) := by
  intro l
  induction l with
  | nil =>
    rw [show sortNodes [] = [] from rfl, canonList_nil]
    rfl
  | cons x xs ih =>
    rw [sortNodes, canonList_insertSorted, ih, canonList_cons, sortNodes]

/-! ## Canonical equality is preserved by insertion -/

theorem replaceChild_replaceChild {x : String} {A B : TreeNode}
    (hA : A.name = x) :
    ∀ cs : List TreeNode,
      replaceChild (replaceChild cs x A) x B = replaceChild cs x B := by
  intro cs
  induction cs with
  | nil => rfl
  | cons c rest ih =>
    by_cases h : (c.name == x) = true
    · rw [replaceChild_cons c rest x A, if_pos h,
        replaceChild_cons A (replaceChild rest x A) x B,
        if_pos (show (A.name == x) = true by rw [hA]; simp),
        ih, replaceChild_cons c rest x B, if_pos h]
    · rw [replaceChild_cons c rest x A, if_neg h,
        replaceChild_cons c (replaceChild rest x A) x B, if_neg h,
        ih, replaceChild_cons c rest x B, if_neg h]

theorem replaceChild_append (cs ds : List TreeNode) (x : String)
    (W : TreeNode) :
    replaceChild (cs ++ ds) x W =
      replaceChild cs x W ++ replaceChild ds x W := by
  unfold replaceChild
  exact List.map_append _ cs ds

theorem childNames_perm_sortCanon (cs : List TreeNode) :
    (childNames (sortNodes (canonList cs))).Perm (childNames cs) := by
  have h : (childNames (sortNodes (canonList cs))).Perm
      (childNames (canonList cs)) :=
    (sortNodes_perm (canonList cs)).map TreeNode.name
  rw [childNames_canonList] at h
  exact h

theorem sortedCanon_names_iff {cs₁ cs₂ : List TreeNode}
    (hcs : sortNodes (canonList cs₁) = sortNodes (canonList cs₂))
    (x : String) : x ∈ childNames cs₁ ↔ x ∈ childNames cs₂ := by
  rw [← (childNames_perm_sortCanon cs₁).mem_iff,
    ← (childNames_perm_sortCanon cs₂).mem_iff, hcs]

theorem sortedCanon_findChild {cs₁ cs₂ : List TreeNode}
    (hcs : sortNodes (canonList cs₁) = sortNodes (canonList cs₂))
    (hnd₂ : (childNames cs₂).Nodup) {x : String} {c₁ c₂ : TreeNode}
    (h₁ : findChild cs₁ x = some c₁) (h₂ : findChild cs₂ x = some c₂) :
    canon c₁ = canon c₂ := by
  have m₁ : canon c₁ ∈ sortNodes (canonList cs₂) := by
    rw [← hcs]
    apply mem_sortNodes.mpr
    rw [canonList_eq_map]
    exact List.mem_map_of_mem canon (findChild_mem h₁).1
  have m₂ : canon c₂ ∈ sortNodes (canonList cs₂) := by
    apply mem_sortNodes.mpr
    rw [canonList_eq_map]
    exact List.mem_map_of_mem canon (findChild_mem h₂).1
  have hnds : (childNames (sortNodes (canonList cs₂))).Nodup :=
    ((childNames_perm_sortCanon cs₂).nodup_iff).mpr hnd₂
  apply mem_name_unique hnds m₁ m₂
  rw [canon_name, canon_name, (findChild_mem h₁).2, (findChild_mem h₂).2]

theorem canon_insertParts : ∀ (p : List String) (t₁ t₂ : TreeNode),
    nodupTree t₁ → nodupTree t₂ → canon t₁ = canon t₂ →
    canon (insertParts t₁ p) = canon (insertParts t₂ p) := by
  intro p
  induction p with
  | nil =>
    intro t₁ t₂ _ _ h
    rw [insertParts_nil, insertParts_nil]
    exact h
  | cons x rest ih =>
    intro t₁ t₂ hnd₁ hnd₂ hc
    cases t₁ with
    | mk n₁ f₁ cs₁ =>
      cases t₂ with
      | mk n₂ f₂ cs₂ =>
        rw [canon_mk, canon_mk] at hc
        injection hc with hn hf hcs
        rw [nodupTree_mk] at hnd₁ hnd₂
        simp only [insertParts]
        cases hfc₁ : findChild cs₁ x with
        | none =>
          have hfc₂ : findChild cs₂ x = none := by
            rw [findChild_none_iff] at hfc₁ ⊢
            exact fun hx => hfc₁ ((sortedCanon_names_iff hcs x).mpr hx)
          simp only [hfc₂]
          rw [canon_mk, canon_mk, hn, hf]
          congr 1
          rw [canonList_append, canonList_append, canonList_cons,
            canonList_nil]
          have hnew : (canon (insertParts
              (TreeNode.mk x rest.isEmpty []) rest)).name = x := by
            rw [canon_name, insertParts_name, TreeNode.name]
          rw [sortNodes_append_single _ (fun a ha => ?_),
            sortNodes_append_single _ (fun a ha => ?_), hcs]
          · rw [canonList_eq_map] at ha
            obtain ⟨b, hb, rfl⟩ := List.mem_map.mp ha
            rw [canon_name, hnew]
            rw [findChild_none_iff] at hfc₂
            exact fun he => hfc₂ (he ▸ List.mem_map_of_mem TreeNode.name hb)
          · rw [canonList_eq_map] at ha
            obtain ⟨b, hb, rfl⟩ := List.mem_map.mp ha
            rw [canon_name, hnew]
            rw [findChild_none_iff] at hfc₁
            exact fun he => hfc₁ (he ▸ List.mem_map_of_mem TreeNode.name hb)
        | some c₁ =>
          have hx₁ : x ∈ childNames cs₁ := by
            by_contra hx
            rw [← findChild_none_iff] at hx
            rw [hx] at hfc₁
            cases hfc₁
          have hx₂ : x ∈ childNames cs₂ :=
            (sortedCanon_names_iff hcs x).mp hx₁
          obtain ⟨c₂, hfc₂⟩ : ∃ c₂, findChild cs₂ x = some c₂ := by
            cases hfc₂ : findChild cs₂ x with
            | none =>
              rw [findChild_none_iff] at hfc₂
              exact absurd hx₂ hfc₂
            | some c₂ => exact ⟨c₂, rfl⟩
          simp only [hfc₂]
          have hcc : canon c₁ = canon c₂ :=
            sortedCanon_findChild hcs hnd₂.1 hfc₁ hfc₂
          have hW := ih c₁ c₂
            (nodupList_mem hnd₁.2 (findChild_mem hfc₁).1)
            (nodupList_mem hnd₂.2 (findChild_mem hfc₂).1) hcc
          rw [canon_mk, canon_mk, hn, hf]
          congr 1
          rw [canonList_replaceChild, canonList_replaceChild]
          rw [sortNodes_replaceChild (by
              rw [canon_name, insertParts_name, (findChild_mem hfc₁).2]),
            sortNodes_replaceChild (by
              rw [canon_name, insertParts_name, (findChild_mem hfc₂).2]),
            hcs, hW]

theorem canon_foldl (R : List (List String)) :
    ∀ t₁ t₂ : TreeNode, nodupTree t₁ → nodupTree t₂ →
      canon t₁ = canon t₂ →
      canon (R.foldl insertParts t₁) = canon (R.foldl insertParts t₂) := by
  induction R with
  | nil => intro t₁ t₂ _ _ h; exact h
  | cons r R' ih =>
    intro t₁ t₂ hnd₁ hnd₂ h
    rw [List.foldl_cons, List.foldl_cons]
    exact ih (insertParts t₁ r) (insertParts t₂ r)
      (nodupTree_insert r t₁ hnd₁) (nodupTree_insert r t₂ hnd₂)
      (canon_insertParts r t₁ t₂ hnd₁ hnd₂ h)

theorem replaceChild_comm {x y : String} (hxy : x ≠ y)
    {A B : TreeNode} (hA : A.name = x) (hB : B.name = y) :
    ∀ cs : List TreeNode,
      replaceChild (replaceChild cs x A) y B =
        replaceChild (replaceChild cs y B) x A := by
  intro cs
  induction cs with
  | nil => rfl
  | cons c rest ih =>
    by_cases hx : (c.name == x) = true
    · have hy : (c.name == y) = false := by
        rw [beq_eq_false_iff_ne]
        intro he
        exact hxy ((beq_iff_eq.mp hx) ▸ he)
      rw [replaceChild_cons c rest x A, if_pos hx,
        replaceChild_cons A (replaceChild rest x A) y B,
        if_neg (by rw [hA]; simp [hxy]),
        replaceChild_cons c rest y B, if_neg (by rw [hy]; simp),
        replaceChild_cons c (replaceChild rest y B) x A, if_pos hx, ih]
    · by_cases hy : (c.name == y) = true
      · rw [replaceChild_cons c rest x A, if_neg hx,
          replaceChild_cons c (replaceChild rest x A) y B, if_pos hy,
          replaceChild_cons c rest y B, if_pos hy,
          replaceChild_cons B (replaceChild rest y B) x A,
          if_neg (by rw [hB]; simp [Ne.symm hxy]), ih]
      · rw [replaceChild_cons c rest x A, if_neg hx,
          replaceChild_cons c (replaceChild rest x A) y B, if_neg hy,
          replaceChild_cons c rest y B, if_neg hy,
          replaceChild_cons c (replaceChild rest y B) x A, if_neg hx, ih]

/-- Two insertions whose paths are not leading-segment runs of one
another commute, up to the canonical form (children orders may differ). -/
theorem canon_insert_comm : ∀ (p q : List String) (t : TreeNode),
    nodupTree t → pfxOf p q = false → pfxOf q p = false →
    canon (insertParts (insertParts t p) q) =
      canon (insertParts (insertParts t q) p) := by
  intro p
  induction p with
  | nil =>
    intro q t _ hpq _
    simp [pfxOf] at hpq
  | cons x p' ih =>
    intro q t hnd hpq hqp
    cases q with
    | nil => simp [pfxOf] at hqp
    | cons y q' =>
      cases t with
      | mk n f cs =>
        rw [nodupTree_mk] at hnd
        by_cases hxy : x = y
        · subst hxy
          rw [pfxOf_cons_cons] at hpq hqp
          simp only [beq_self_eq_true, Bool.true_and] at hpq hqp
          cases hfc : findChild cs x with
          | some c =>
            have hAname : (insertParts c p').name = x := by
              rw [insertParts_name]
              exact (findChild_mem hfc).2
            have hBname : (insertParts c q').name = x := by
              rw [insertParts_name]
              exact (findChild_mem hfc).2
            simp only [insertParts, hfc]
            simp only [findChild_replace_self hfc hAname,
              findChild_replace_self hfc hBname]
            rw [replaceChild_replaceChild hAname,
              replaceChild_replaceChild hBname]
            rw [canon_mk, canon_mk]
            congr 1
            rw [canonList_replaceChild, canonList_replaceChild]
            rw [sortNodes_replaceChild (by
                rw [canon_name, insertParts_name, hAname]),
              sortNodes_replaceChild (by
                rw [canon_name, insertParts_name, hBname])]
            rw [ih q' c (nodupList_mem hnd.2 (findChild_mem hfc).1)
              hpq hqp]
          | none =>
            have hp'ne : p' ≠ [] := by
              intro h
              rw [h] at hpq
              simp [pfxOf] at hpq
            have hq'ne : q' ≠ [] := by
              intro h
              rw [h] at hqp
              simp [pfxOf] at hqp
            have hpE : p'.isEmpty = false := by
              cases p' with
              | nil => exact absurd rfl hp'ne
              | cons a as => rfl
            have hqE : q'.isEmpty = false := by
              cases q' with
              | nil => exact absurd rfl hq'ne
              | cons a as => rfl
            have hNp : (insertParts (TreeNode.mk x p'.isEmpty []) p').name
                = x := by
              rw [insertParts_name, TreeNode.name]
            have hNq : (insertParts (TreeNode.mk x q'.isEmpty []) q').name
                = x := by
              rw [insertParts_name, TreeNode.name]
            have hfindp : findChild
                (cs ++ [insertParts (TreeNode.mk x p'.isEmpty []) p']) x =
                some (insertParts (TreeNode.mk x p'.isEmpty []) p') := by
              rw [findChild_append]
              simp only [hfc]
              rw [findChild_cons, if_pos (by rw [hNp]; simp)]
            have hfindq : findChild
                (cs ++ [insertParts (TreeNode.mk x q'.isEmpty []) q']) x =
                some (insertParts (TreeNode.mk x q'.isEmpty []) q') := by
              rw [findChild_append]
              simp only [hfc]
              rw [findChild_cons, if_pos (by rw [hNq]; simp)]
            simp only [insertParts, hfc]
            simp only [hfindp, hfindq]
            rw [replaceChild_append, replaceChild_append,
              replaceChild_noop (findChild_none_iff.mp hfc),
              replaceChild_noop (findChild_none_iff.mp hfc)]
            rw [replaceChild_cons, if_pos (by rw [hNp]; simp),
              replaceChild_cons, if_pos (by rw [hNq]; simp),
              replaceChild_nil, replaceChild_nil]
            rw [canon_mk, canon_mk]
            congr 1
            rw [canonList_append, canonList_append, canonList_cons,
              canonList_cons, canonList_nil]
            rw [sortNodes_append_single _ (fun a ha => ?_),
              sortNodes_append_single _ (fun a ha => ?_)]
            · rw [hpE, hqE]
              rw [ih q' (TreeNode.mk x false [])
                (by rw [nodupTree_mk]
                    exact ⟨by simp [childNames], nodupList_nil⟩) hpq hqp]
            · rw [canonList_eq_map] at ha
              obtain ⟨b, hb, rfl⟩ := List.mem_map.mp ha
              rw [canon_name, canon_name, insertParts_name, hNq]
              intro he
              exact (findChild_none_iff.mp hfc)
                (he ▸ List.mem_map_of_mem TreeNode.name hb)
            · rw [canonList_eq_map] at ha
              obtain ⟨b, hb, rfl⟩ := List.mem_map.mp ha
              rw [canon_name, canon_name, insertParts_name, hNp]
              intro he
              exact (findChild_none_iff.mp hfc)
                (he ▸ List.mem_map_of_mem TreeNode.name hb)
        · cases hfx : findChild cs x with
          | some cx =>
            have hAXname : (insertParts cx p').name = x := by
              rw [insertParts_name]
              exact (findChild_mem hfx).2
            cases hfy : findChild cs y with
            | some cy =>
              have hAYname : (insertParts cy q').name = y := by
                rw [insertParts_name]
                exact (findChild_mem hfy).2
              have h1 : findChild (replaceChild cs x (insertParts cx p')) y
                  = some cy := by
                rw [findChild_replace_other (Ne.symm hxy) hAXname]
                exact hfy
              have h2 : findChild (replaceChild cs y (insertParts cy q')) x
                  = some cx := by
                rw [findChild_replace_other hxy hAYname]
                exact hfx
              simp only [insertParts, hfx, hfy]
              simp only [h1, h2]
              rw [replaceChild_comm hxy hAXname hAYname]
            | none =>
              have hNYname : (insertParts
                  (TreeNode.mk y q'.isEmpty []) q').name = y := by
                rw [insertParts_name, TreeNode.name]
              have h1 : findChild (replaceChild cs x (insertParts cx p')) y
                  = none := by
                rw [findChild_replace_other (Ne.symm hxy) hAXname]
                exact hfy
              have h2 : findChild
                  (cs ++ [insertParts (TreeNode.mk y q'.isEmpty []) q']) x
                  = some cx := by
                rw [findChild_append]
                simp only [hfx]
              simp only [insertParts, hfx, hfy]
              simp only [h1, h2]
              rw [replaceChild_append,
                replaceChild_cons, if_neg (by
                  rw [hNYname]
                  simp [Ne.symm hxy]),
                replaceChild_nil]
          | none =>
            have hNXname : (insertParts
                (TreeNode.mk x p'.isEmpty []) p').name = x := by
              rw [insertParts_name, TreeNode.name]
            cases hfy : findChild cs y with
            | some cy =>
              have hAYname : (insertParts cy q').name = y := by
                rw [insertParts_name]
                exact (findChild_mem hfy).2
              have h1 : findChild
                  (cs ++ [insertParts (TreeNode.mk x p'.isEmpty []) p']) y
                  = some cy := by
                rw [findChild_append]
                simp only [hfy]
              have h2 : findChild (replaceChild cs y (insertParts cy q')) x
                  = none := by
                rw [findChild_replace_other hxy hAYname]
                exact hfx
              simp only [insertParts, hfx, hfy]
              simp only [h1, h2]
              rw [replaceChild_append,
                replaceChild_cons, if_neg (by
                  rw [hNXname]
                  simp [hxy]),
                replaceChild_nil]
            | none =>
              have hNYname : (insertParts
                  (TreeNode.mk y q'.isEmpty []) q').name = y := by
                rw [insertParts_name, TreeNode.name]
              have h1 : findChild
                  (cs ++ [insertParts (TreeNode.mk x p'.isEmpty []) p']) y
                  = none := by
                rw [findChild_append]
                simp only [hfy]
                rw [findChild_cons, if_neg (by
                  rw [hNXname]
                  simp [hxy])]
                rfl
              have h2 : findChild
                  (cs ++ [insertParts (TreeNode.mk y q'.isEmpty []) q']) x
                  = none := by
                rw [findChild_append]
                simp only [hfx]
                rw [findChild_cons, if_neg (by
                  rw [hNYname]
                  simp [Ne.symm hxy])]
                rfl
              simp only [insertParts, hfx, hfy]
              simp only [h1, h2]
              rw [List.append_assoc, List.append_assoc,
                List.singleton_append, List.singleton_append]
              rw [canon_mk, canon_mk]
              congr 1
              rw [canonList_append, canonList_append, canonList_cons,
                canonList_cons, canonList_cons, canonList_cons,
                canonList_nil]
              exact sortNodes_swap_pair (by
                rw [canon_name, canon_name, hNXname, hNYname]
                exact hxy) (canonList cs)

theorem sortNodes_length (l : List TreeNode) :
    (sortNodes l).length = l.length :=
  (sortNodes_perm l).length_eq

/-- Folding a permuted path list into the trie yields the same canonical
tree, provided no path is a segment-ancestor of another. -/
theorem canon_foldl_perm {R₁ R₂ : List (List String)} (hperm : R₁.Perm R₂) :
    ∀ t : TreeNode, nodupTree t →
      R₁.Pairwise (fun a b => pfxOf a b = false ∧ pfxOf b a = false) →
      canon (R₁.foldl insertParts t) = canon (R₂.foldl insertParts t) := by
  induction hperm with
  | nil => intro t _ _; rfl
  | cons a hsub ih =>
    intro t hnd hpw
    rw [List.foldl_cons, List.foldl_cons]
    exact ih (insertParts t a) (nodupTree_insert a t hnd)
      ((List.pairwise_cons.mp hpw).2)
  | swap a b l =>
    intro t hnd hpw
    rw [List.foldl_cons, List.foldl_cons, List.foldl_cons,
      List.foldl_cons]
    have hrel := (List.pairwise_cons.mp hpw).1 a
      (List.mem_cons_self a l)
    exact canon_foldl l (insertParts (insertParts t b) a)
      (insertParts (insertParts t a) b)
      (nodupTree_insert a (insertParts t b) (nodupTree_insert b t hnd))
      (nodupTree_insert b (insertParts t a) (nodupTree_insert a t hnd))
      (canon_insert_comm b a t hnd hrel.1 hrel.2)
  | trans h₁ h₂ ih₁ ih₂ =>
    intro t hnd hpw
    rw [ih₁ t hnd hpw]
    exact ih₂ t hnd
      ((h₁.pairwise_iff (fun {u v} h => ⟨h.2, h.1⟩)).mp hpw)

/-- Rendering only depends on the canonical form: lists of children with
equal canonical images render identically. -/
theorem renderGo_congr : ∀ (k : Nat) (l₁ l₂ : List TreeNode) (pre : String),
    sizeOf l₁ ≤ k → canonList l₁ = canonList l₂ →
    renderGo pre l₁ = renderGo pre l₂ := by
  intro k
  induction k with
  | zero =>
    intro l₁ l₂ pre hk
    exfalso
    cases l₁ <;>
      simp only [List.nil.sizeOf_spec, List.cons.sizeOf_spec] at hk <;> omega
  | succ k ih =>
    intro l₁ l₂ pre hk hcl
    cases l₁ with
    | nil =>
      cases l₂ with
      | nil => rfl
      | cons c₂ r₂ =>
        rw [canonList_nil, canonList_cons] at hcl
        cases hcl
    | cons c₁ r₁ =>
      cases l₂ with
      | nil =>
        rw [canonList_nil, canonList_cons] at hcl
        cases hcl
      | cons c₂ r₂ =>
        rw [canonList_cons, canonList_cons] at hcl
        injection hcl with hcc hcl'
        cases c₁ with
        | mk a₁ b₁ ch₁ =>
          cases c₂ with
          | mk a₂ b₂ ch₂ =>
            rw [canon_mk, canon_mk] at hcc
            injection hcc with ha hb hch
            subst ha
            subst hb
            have hlen : ch₁.length = ch₂.length := by
              have hl := congrArg List.length hch
              rw [sortNodes_length, sortNodes_length, canonList_length,
                canonList_length] at hl
              exact hl
            have hsz : sizeOf (sortNodes ch₁) ≤ k := by
              rw [sizeOf_sortNodes]
              simp only [List.cons.sizeOf_spec, TreeNode.mk.sizeOf_spec]
                at hk
              omega
            have hrec : ∀ pre' : String,
                renderGo pre' (sortNodes ch₁) =
                  renderGo pre' (sortNodes ch₂) := by
              intro pre'
              refine ih (sortNodes ch₁) (sortNodes ch₂) pre' hsz ?_
              rw [canonList_sortNodes, canonList_sortNodes, hch]
            cases r₁ with
            | nil =>
              cases r₂ with
              | nil =>
                simp only [renderGo, renderLines, TreeNode.children,
                  TreeNode.isFile, TreeNode.name]
                simp only [hlen, hrec]
              | cons d₂ s₂ =>
                rw [canonList_nil, canonList_cons] at hcl'
                cases hcl'
            | cons d₁ s₁ =>
              cases r₂ with
              | nil =>
                rw [canonList_nil, canonList_cons] at hcl'
                cases hcl'
              | cons d₂ s₂ =>
                have htsz : sizeOf (d₁ :: s₁) ≤ k := by
                  simp only [List.cons.sizeOf_spec,
                    TreeNode.mk.sizeOf_spec] at hk
                  simp only [List.cons.sizeOf_spec]
                  omega
                simp only [renderGo, renderLines, TreeNode.children,
                  TreeNode.isFile, TreeNode.name]
                simp only [hlen, hrec,
                  ih (d₁ :: s₁) (d₂ :: s₂) pre htsz hcl']

theorem renderLines_congr {t₁ t₂ : TreeNode} (h : canon t₁ = canon t₂)
    (pre : String) : renderLines t₁ pre = renderLines t₂ pre := by
  cases t₁ with
  | mk a₁ b₁ ch₁ =>
    cases t₂ with
    | mk a₂ b₂ ch₂ =>
      rw [canon_mk, canon_mk] at h
      injection h with _ _ hch
      simp only [renderLines]
      refine renderGo_congr (sizeOf (sortNodes ch₁)) _ _ pre le_rfl ?_
      rw [canonList_sortNodes, canonList_sortNodes, hch]

theorem topFold_congr : ∀ (l₁ l₂ : List TreeNode),
    canonList l₁ = canonList l₂ →
    l₁.foldr (fun r acc =>
      (r.name ++ (if r.children.length > 0 && !r.isFile then "/" else ""))
        :: renderLines r "" ++ acc) [] =
    l₂.foldr (fun r acc =>
      (r.name ++ (if r.children.length > 0 && !r.isFile then "/" else ""))
        :: renderLines r "" ++ acc) [] := by
  intro l₁
  induction l₁ with
  | nil =>
    intro l₂ h
    cases l₂ with
    | nil => rfl
    | cons c r =>
      rw [canonList_nil, canonList_cons] at h
      cases h
  | cons c₁ r₁ ih =>
    intro l₂ h
    cases l₂ with
    | nil =>
      rw [canonList_nil, canonList_cons] at h
      cases h
    | cons c₂ r₂ =>
      rw [canonList_cons, canonList_cons] at h
      injection h with hcc hr
      rw [List.foldr_cons, List.foldr_cons, ih r₂ hr]
      have hname : c₁.name = c₂.name := by
        rw [← canon_name c₁, ← canon_name c₂, hcc]
      have hfile : c₁.isFile = c₂.isFile := by
        rw [← canon_isFile c₁, ← canon_isFile c₂, hcc]
      have hlen : c₁.children.length = c₂.children.length := by
        cases c₁ with
        | mk a₁ b₁ ch₁ =>
          cases c₂ with
          | mk a₂ b₂ ch₂ =>
            rw [canon_mk, canon_mk] at hcc
            injection hcc with h1 h2 hch
            have hl := congrArg List.length hch
            rw [sortNodes_length, sortNodes_length, canonList_length,
              canonList_length] at hl
            simp only [TreeNode.children]
            exact hl
      have hrl := renderLines_congr hcc ""
      simp only [hname, hfile, hlen, hrl]

theorem treeLines_congr (fs : FS) (F₁ F₂ : List String)
    (h : canon (buildTrie (relativePathsOf fs F₁)) =
      canon (buildTrie (relativePathsOf fs F₂))) :
    treeLines fs F₁ = treeLines fs F₂ := by
  cases hT₁ : buildTrie (relativePathsOf fs F₁) with
  | mk n₁ f₁ cs₁ =>
    cases hT₂ : buildTrie (relativePathsOf fs F₂) with
    | mk n₂ f₂ cs₂ =>
      rw [hT₁, hT₂, canon_mk, canon_mk] at h
      injection h with hn hf hch
      have hcl : canonList (sortNodes cs₁) = canonList (sortNodes cs₂) := by
        rw [canonList_sortNodes, canonList_sortNodes, hch]
      cases hs₁ : sortNodes cs₁ with
      | nil =>
        have hs₂ : sortNodes cs₂ = [] := by
          rw [hs₁, canonList_nil] at hcl
          cases hsort₂ : sortNodes cs₂ with
          | nil => rfl
          | cons c r =>
            rw [hsort₂, canonList_cons] at hcl
            cases hcl
        rw [treeLines_nil fs F₁ (by rw [hT₁]; exact hs₁),
          treeLines_nil fs F₂ (by rw [hT₂]; exact hs₂)]
      | cons r₁ rest₁ =>
        rw [hs₁, canonList_cons] at hcl
        obtain ⟨r₂, rest₂, hs₂, hrr, hrest⟩ :
            ∃ r₂ rest₂, sortNodes cs₂ = r₂ :: rest₂ ∧
              canon r₁ = canon r₂ ∧ canonList rest₁ = canonList rest₂ := by
          cases hsort₂ : sortNodes cs₂ with
          | nil =>
            rw [hsort₂, canonList_nil] at hcl
            cases hcl
          | cons r₂ rest₂ =>
            rw [hsort₂, canonList_cons] at hcl
            injection hcl with h1 h2
            exact ⟨r₂, rest₂, rfl, h1, h2⟩
        cases rest₁ with
        | nil =>
          have hrest₂nil : rest₂ = [] := by
            cases rest₂ with
            | nil => rfl
            | cons d t =>
              rw [canonList_nil, canonList_cons] at hrest
              cases hrest
          subst hrest₂nil
          rw [treeLines_single fs F₁ r₁ (by rw [hT₁]; exact hs₁),
            treeLines_single fs F₂ r₂ (by rw [hT₂]; exact hs₂)]
          rw [show r₁.name = r₂.name from by
            rw [← canon_name r₁, ← canon_name r₂, hrr],
            renderLines_congr hrr ""]
        | cons d₁ t₁ =>
          obtain ⟨d₂, t₂, rfl⟩ : ∃ d₂ t₂, rest₂ = d₂ :: t₂ := by
            cases rest₂ with
            | nil =>
              rw [canonList_nil, canonList_cons] at hrest
              cases hrest
            | cons d₂ t₂ => exact ⟨d₂, t₂, rfl⟩
          rw [treeLines_multi fs F₁ r₁ d₁ t₁ (by rw [hT₁]; exact hs₁),
            treeLines_multi fs F₂ r₂ d₂ t₂ (by rw [hT₂]; exact hs₂)]
          apply topFold_congr
          rw [canonList_cons, hrr, hrest, canonList_cons r₂ (d₂ :: t₂)]

/-- **C1 counterexample.** Selecting `a.txt, b.txt` versus `b.txt, a.txt`
resolves to the same final file *set* (the two resolved sequences are
permutations of each other), yet the serialized content differs: the
blocks follow the file set's insertion order — the selection order — not
the sorted order used for the tree. -/
theorem c1_counterexample :
    (resolveFileSet fsA 1 (getGitignoreFilter igNone false fsA "/w" false)
      ["/w/a.txt", "/w/b.txt"] = ["/w/a.txt", "/w/b.txt"]) ∧
    (resolveFileSet fsA 1 (getGitignoreFilter igNone false fsA "/w" false)
      ["/w/b.txt", "/w/a.txt"] = ["/w/b.txt", "/w/a.txt"]) ∧
    (["/w/a.txt", "/w/b.txt"] : List String).Perm
      ["/w/b.txt", "/w/a.txt"] ∧
    buildFilesContent fsA ["/w/a.txt", "/w/b.txt"] ≠
      buildFilesContent fsA ["/w/b.txt", "/w/a.txt"] :=
  ⟨rfl, rfl, by decide, fun h =>
    absurd (congrArg (fun e => match e with
      | Except.ok s => s
      | Except.error s => s) h) (by decide)⟩

/-- **C1 (amended).** The *tree* half of the claim is true: two
selections resolving to file sets that are permutations of one another
(same final set, possibly different insertion order) render the same
tree, because the children are re-sorted by name at every level.  The
*content* half is false (see the counterexample): blocks follow the file
set's insertion order, which depends on selection order. -/
theorem c1_amended (fs : FS) (F₁ F₂ : List String)
    (hperm : F₁.Perm F₂)
    (hnd : (F₁.map (fileRelativePath fs)).Nodup)
    (hpw : PairwiseNotPfx ((F₁.map (fileRelativePath fs)).map
      jsSplitSlash)) :
    buildTreeFromRoot fs F₁ = buildTreeFromRoot fs F₂ := by
  have hrels : (F₁.map (fileRelativePath fs)).Perm
      (F₂.map (fileRelativePath fs)) := hperm.map _
  have hnd₂ : (F₂.map (fileRelativePath fs)).Nodup :=
    (hrels.nodup_iff).mp hnd
  have hR : ((F₁.map (fileRelativePath fs)).map jsSplitSlash).Perm
      ((F₂.map (fileRelativePath fs)).map jsSplitSlash) := hrels.map _
  have hcanon : canon (buildTrie (relativePathsOf fs F₁)) =
      canon (buildTrie (relativePathsOf fs F₂)) := by
    rw [relativePathsOf_eq_map fs F₁ hnd,
      relativePathsOf_eq_map fs F₂ hnd₂,
      buildTrie_eq_fold, buildTrie_eq_fold]
    exact canon_foldl_perm hR (TreeNode.mk "" false []) nodupTree_root0 hpw
  unfold buildTreeFromRoot
  rw [treeLines_congr fs F₁ F₂ hcanon]

/-- **C1 witness.** The two selection orders of `a.txt` and `b.txt`
produce the same rendered tree. -/
theorem c1_amended_witness :
    (["/w/a.txt", "/w/b.txt"] : List String).Perm
      ["/w/b.txt", "/w/a.txt"] ∧
    (["/w/a.txt", "/w/b.txt"].map (fileRelativePath fsA)).Nodup ∧
    PairwiseNotPfx ((["/w/a.txt", "/w/b.txt"].map
      (fileRelativePath fsA)).map jsSplitSlash) ∧
    buildTreeFromRoot fsA ["/w/a.txt", "/w/b.txt"] =
      buildTreeFromRoot fsA ["/w/b.txt", "/w/a.txt"] :=
  ⟨by decide, by decide, by unfold PairwiseNotPfx; decide,
    c1_amended fsA ["/w/a.txt", "/w/b.txt"] ["/w/b.txt", "/w/a.txt"]
      (by decide) (by decide) (by unfold PairwiseNotPfx; decide)⟩

/-- **C7 witness.** Selecting the directory `/w/d` and the file
`/w/d/x.txt` it contains yields a file set holding `/w/d/x.txt` exactly
once, with both invariants available from the theorem. -/
theorem c7_fileset_invariants_witness :
    ConsistentFS fsA ∧
    ((resolveFileSet fsA 1 (getGitignoreFilter igNone false fsA "/w" false)
        ["/w/d", "/w/d/x.txt"]).Nodup ∧
      ∀ p ∈ resolveFileSet fsA 1
          (getGitignoreFilter igNone false fsA "/w" false)
          ["/w/d", "/w/d/x.txt"],
        fsA.stat p = some .file ∧
        getGitignoreFilter igNone false fsA "/w" false p = true ∧
        (resolveFileSet fsA 1 (getGitignoreFilter igNone false fsA "/w" false)
          ["/w/d", "/w/d/x.txt"]).count p = 1) :=
  ⟨fsA_consistent,
    c7_fileset_invariants igNone false fsA "/w" 1 false
      ["/w/d", "/w/d/x.txt"] fsA_consistent⟩

end MergeMaster
